import Mathlib

set_option maxHeartbeats 1000000
set_option maxRecDepth 1000000

namespace Game24

/-! Shallow embedding of `app/checker.py` and `app/solver.py` from the 24-game
repository.  Python numbers are modeled exactly: `int` as `ℤ` and `float` as
`ℚ` (true division is real-valued division).  Uncaught Python exceptions are
modeled by the `PyErr` error type of an `Except` result.

Mathlib's rational arithmetic normalizes through `Nat.gcd`, which is defined
by well-founded recursion and therefore does not reduce inside the kernel, so
the embedding computes with its own structurally recursive rational
operations (`qAdd`, `qMul`, ...); each is proved equal to the corresponding
Mathlib operation right after its definition. -/

/-- Euclid's algorithm with explicit fuel; `sgcd (m+1) m n = Nat.gcd m n`. -/
def sgcd : ℕ → ℕ → ℕ → ℕ
  | 0, m, n => m + n
  | fuel + 1, m, n => if m = 0 then n else sgcd fuel (n % m) m

theorem sgcd_eq_gcd : ∀ (fuel m n : ℕ), m < fuel → sgcd fuel m n = Nat.gcd m n := by
  intro fuel
  induction fuel with
  | zero => intro m n h; exact absurd h (Nat.not_lt_zero m)
  | succ f ih =>
    intro m n h
    by_cases hm : m = 0
    · subst hm; simp [sgcd]
    · have hmf : m ≤ f := Nat.lt_succ_iff.mp h
      have hrec : n % m < f :=
        Nat.lt_of_lt_of_le (Nat.mod_lt n (Nat.pos_of_ne_zero hm)) hmf
      rw [sgcd, if_neg hm, ih (n % m) m hrec]
      exact (Nat.gcd_rec m n).symm

/-- Build the normalized rational `n / d` by structurally computable
normalization (sign into the numerator, divide out the gcd). -/
def ratNorm (n d : ℤ) : ℚ :=
  if hd : d = 0 then 0
  else
    let n' : ℤ := if d < 0 then -n else n
    let d' : ℕ := d.natAbs
    let g : ℕ := sgcd (n'.natAbs + 1) n'.natAbs d'
    ⟨n' / (g : ℤ), d' / g,
      by
        have hg : g = Nat.gcd n'.natAbs d' := sgcd_eq_gcd _ _ _ (Nat.lt_succ_self _)
        have hd' : 0 < d' := Nat.pos_of_ne_zero (Int.natAbs_ne_zero.mpr hd)
        rw [hg]
        exact (Nat.div_gcd_pos_of_pos_right _ hd').ne',
      by
        have hg : g = Nat.gcd n'.natAbs d' := sgcd_eq_gcd _ _ _ (Nat.lt_succ_self _)
        have hd' : 0 < d' := Nat.pos_of_ne_zero (Int.natAbs_ne_zero.mpr hd)
        have hgpos : 0 < Nat.gcd n'.natAbs d' := Nat.gcd_pos_of_pos_right _ hd'
        have hdvd : (g : ℤ) ∣ n' := by
          rw [hg]
          exact (Int.natCast_dvd_natCast.mpr (Nat.gcd_dvd_left _ _)).trans
            (Int.natAbs_dvd.mpr dvd_rfl)
        rw [Int.natAbs_ediv _ _ hdvd, Int.natAbs_ofNat, hg]
        exact Nat.coprime_div_gcd_div_gcd hgpos⟩

theorem ratNorm_zero_den (n : ℤ) : ratNorm n 0 = 0 := by simp [ratNorm]

theorem ratNorm_eq (n d : ℤ) (hd : d ≠ 0) : ratNorm n d = (n : ℚ) / (d : ℚ) := by
  rw [ratNorm, dif_neg hd]
  set n' : ℤ := if d < 0 then -n else n with hn'
  set d' : ℕ := d.natAbs with hdn
  set g : ℕ := sgcd (n'.natAbs + 1) n'.natAbs d' with hgdef
  have hg : g = Nat.gcd n'.natAbs d' := sgcd_eq_gcd _ _ _ (Nat.lt_succ_self _)
  have hd' : 0 < d' := Nat.pos_of_ne_zero (Int.natAbs_ne_zero.mpr hd)
  have hgpos : 0 < g := by rw [hg]; exact Nat.gcd_pos_of_pos_right _ hd'
  have hgz : (g : ℤ) ≠ 0 := Int.natCast_ne_zero.mpr hgpos.ne'
  have hdvdn : (g : ℤ) ∣ n' := by
    rw [hg]
    exact (Int.natCast_dvd_natCast.mpr (Nat.gcd_dvd_left _ _)).trans
      (Int.natAbs_dvd.mpr dvd_rfl)
  have hdvdd : g ∣ d' := by rw [hg]; exact Nat.gcd_dvd_right _ _
  rw [Rat.mk'_eq_divInt]
  have hcast : ((d' / g : ℕ) : ℤ) = (d' : ℤ) / (g : ℤ) := Int.ofNat_ediv _ _
  have hstep : Rat.divInt (n' / (g : ℤ)) ((d' / g : ℕ) : ℤ) = Rat.divInt n' (d' : ℤ) := by
    rw [hcast]
    calc Rat.divInt (n' / (g : ℤ)) ((d' : ℤ) / (g : ℤ))
        = Rat.divInt (n' / (g : ℤ) * g) ((d' : ℤ) / (g : ℤ) * g) := (Rat.divInt_mul_right hgz).symm
      _ = Rat.divInt n' (d' : ℤ) := by
          rw [Int.ediv_mul_cancel hdvdn, Int.ediv_mul_cancel (Int.natCast_dvd_natCast.mpr hdvdd)]
  rw [hstep]
  have hfin : Rat.divInt n' (d' : ℤ) = Rat.divInt n d := by
    by_cases hneg : d < 0
    · have h1 : n' = -n := by rw [hn', if_pos hneg]
      have h2 : (d' : ℤ) = -d := by
        rw [hdn, Int.ofNat_natAbs_of_nonpos (le_of_lt hneg)]
      rw [h1, h2, Rat.neg_divInt_neg]
    · have h1 : n' = n := by rw [hn', if_neg hneg]
      have h2 : (d' : ℤ) = d := by
        rw [hdn, Int.natAbs_of_nonneg (le_of_not_lt hneg)]
      rw [h1, h2]
  rw [hfin, Rat.divInt_eq_div]

/-- Structurally computable addition on `ℚ`. -/
def qAdd (a b : ℚ) : ℚ :=
  ratNorm (a.num * (b.den : ℤ) + b.num * (a.den : ℤ)) ((a.den : ℤ) * (b.den : ℤ))

/-- Structurally computable subtraction on `ℚ`. -/
def qSub (a b : ℚ) : ℚ :=
  ratNorm (a.num * (b.den : ℤ) - b.num * (a.den : ℤ)) ((a.den : ℤ) * (b.den : ℤ))

/-- Structurally computable multiplication on `ℚ`. -/
def qMul (a b : ℚ) : ℚ := ratNorm (a.num * b.num) ((a.den : ℤ) * (b.den : ℤ))

/-- Structurally computable division on `ℚ`. -/
def qDiv (a b : ℚ) : ℚ := ratNorm (a.num * (b.den : ℤ)) ((a.den : ℤ) * b.num)

/-- Structurally computable embedding of `ℤ` into `ℚ`. -/
def qOfInt (n : ℤ) : ℚ := ⟨n, 1, Nat.one_ne_zero, Nat.coprime_one_right _⟩

theorem qOfInt_eq (n : ℤ) : qOfInt n = (n : ℚ) := by
  rw [qOfInt, Rat.mk'_eq_divInt]
  exact (Rat.intCast_eq_divInt n).symm

theorem den_int_ne_zero (a : ℚ) : (a.den : ℤ) ≠ 0 :=
  Int.natCast_ne_zero.mpr a.den_nz

theorem den_rat_ne_zero (a : ℚ) : ((a.den : ℤ) : ℚ) ≠ 0 := by
  exact_mod_cast fun h => a.den_nz (by exact_mod_cast h)

theorem qAdd_eq (a b : ℚ) : qAdd a b = a + b := by
  rw [qAdd, ratNorm_eq _ _ (mul_ne_zero (den_int_ne_zero a) (den_int_ne_zero b))]
  have ha : ((a.den : ℤ) : ℚ) ≠ 0 := den_rat_ne_zero a
  have hb : ((b.den : ℤ) : ℚ) ≠ 0 := den_rat_ne_zero b
  conv_rhs => rw [← Rat.num_div_den a, ← Rat.num_div_den b]
  push_cast
  field_simp
  try ring

theorem qSub_eq (a b : ℚ) : qSub a b = a - b := by
  rw [qSub, ratNorm_eq _ _ (mul_ne_zero (den_int_ne_zero a) (den_int_ne_zero b))]
  have ha : ((a.den : ℤ) : ℚ) ≠ 0 := den_rat_ne_zero a
  have hb : ((b.den : ℤ) : ℚ) ≠ 0 := den_rat_ne_zero b
  conv_rhs => rw [← Rat.num_div_den a, ← Rat.num_div_den b]
  push_cast
  field_simp
  try ring

theorem qMul_eq (a b : ℚ) : qMul a b = a * b := by
  rw [qMul, ratNorm_eq _ _ (mul_ne_zero (den_int_ne_zero a) (den_int_ne_zero b))]
  have ha : ((a.den : ℤ) : ℚ) ≠ 0 := den_rat_ne_zero a
  have hb : ((b.den : ℤ) : ℚ) ≠ 0 := den_rat_ne_zero b
  conv_rhs => rw [← Rat.num_div_den a, ← Rat.num_div_den b]
  push_cast
  field_simp
  try ring

theorem qDiv_eq (a b : ℚ) : qDiv a b = a / b := by
  by_cases hb : b = 0
  · subst hb
    rw [qDiv, Rat.num_ofNat, mul_zero, ratNorm_zero_den, div_zero]
  · have hbn : b.num ≠ 0 := Rat.num_ne_zero.mpr hb
    rw [qDiv, ratNorm_eq _ _ (mul_ne_zero (den_int_ne_zero a) hbn)]
    have ha : ((a.den : ℤ) : ℚ) ≠ 0 := den_rat_ne_zero a
    have hbd : ((b.den : ℤ) : ℚ) ≠ 0 := den_rat_ne_zero b
    have hbq : ((b.num : ℤ) : ℚ) ≠ 0 := by exact_mod_cast hbn
    conv_rhs => rw [← Rat.num_div_den a, ← Rat.num_div_den b]
    push_cast
    field_simp
    try ring

/-- Structurally decidable `a ≤ b` on `ℚ` (cross multiplication; denominators
are positive). -/
def qle (a b : ℚ) : Prop := a.num * (b.den : ℤ) ≤ b.num * (a.den : ℤ)

instance (a b : ℚ) : Decidable (qle a b) := inferInstanceAs (Decidable (_ ≤ _))

theorem qle_iff (a b : ℚ) : qle a b ↔ a ≤ b := (Rat.le_def).symm

/-- The validator tolerance bounds 23.9 and 24.1. -/
def tol239 : ℚ := ratNorm 239 10

def tol241 : ℚ := ratNorm 241 10

theorem tol239_eq : tol239 = 23.9 := by rw [tol239, ratNorm_eq _ _ (by norm_num)]; norm_num

theorem tol241_eq : tol241 = 24.1 := by rw [tol241, ratNorm_eq _ _ (by norm_num)]; norm_num

/-- The solver tolerance bounds 23.9999 and 24.0001. -/
def tolSolLo : ℚ := ratNorm 239999 10000

def tolSolHi : ℚ := ratNorm 240001 10000

theorem tolSolLo_eq : tolSolLo = 23.9999 := by
  rw [tolSolLo, ratNorm_eq _ _ (by norm_num)]; norm_num

theorem tolSolHi_eq : tolSolHi = 24.0001 := by
  rw [tolSolHi, ratNorm_eq _ _ (by norm_num)]; norm_num


deriving instance DecidableEq for Except

/-- Uncaught Python exception kinds that `check_expression` can raise. -/
inductive PyErr where
  | indexError
  | valueError
  | typeError
  | zeroDivisionError
deriving DecidableEq, Repr

/-- Values that can sit in the checker's `output_queue`: unconverted token
strings, Python ints, and Python floats.  In this first model `vFloat`
carries the exact rational value, idealizing away CPython's binary64
rounding; the claims proved over it are ones the rounding cannot affect.
The rounding itself is modeled faithfully by `F64`/`PyValF` further below,
and `c1_float_rounding_diverges` exhibits an input where the two semantics
visibly differ. -/
inductive PyVal where
  | vInt (n : ℤ)
  | vFloat (q : ℚ)
  | vStr (s : String)
deriving DecidableEq, Repr

/-- Numeric view of a queue entry (`int` and `float` both compare and compute
as numbers in Python). -/
def toQ : PyVal → Option ℚ
  | .vInt n => some (qOfInt n)
  | .vFloat q => some q
  | .vStr _ => none

theorem toQ_vInt (n : ℤ) : toQ (.vInt n) = some ((n : ℚ)) := by
  rw [toQ, qOfInt_eq]

/-- Python `a + b` on queue entries: numeric addition, string concatenation,
`TypeError` on a mix. -/
def pyAdd : PyVal → PyVal → Except PyErr PyVal
  | .vInt a, .vInt b => .ok (.vInt (a + b))
  | .vInt a, .vFloat b => .ok (.vFloat (qAdd (qOfInt a) b))
  | .vFloat a, .vInt b => .ok (.vFloat (qAdd a (qOfInt b)))
  | .vFloat a, .vFloat b => .ok (.vFloat (qAdd a b))
  | .vStr a, .vStr b => .ok (.vStr (a ++ b))
  | _, _ => .error .typeError

/-- Python `a - b` on queue entries. -/
def pySub : PyVal → PyVal → Except PyErr PyVal
  | .vInt a, .vInt b => .ok (.vInt (a - b))
  | .vInt a, .vFloat b => .ok (.vFloat (qSub (qOfInt a) b))
  | .vFloat a, .vInt b => .ok (.vFloat (qSub a (qOfInt b)))
  | .vFloat a, .vFloat b => .ok (.vFloat (qSub a b))
  | _, _ => .error .typeError

/-- Python `a * b` on queue entries, including `str * int` sequence
repetition. -/
def pyMul : PyVal → PyVal → Except PyErr PyVal
  | .vInt a, .vInt b => .ok (.vInt (a * b))
  | .vInt a, .vFloat b => .ok (.vFloat (qMul (qOfInt a) b))
  | .vFloat a, .vInt b => .ok (.vFloat (qMul a (qOfInt b)))
  | .vFloat a, .vFloat b => .ok (.vFloat (qMul a b))
  | .vStr s, .vInt n => .ok (.vStr (String.join (List.replicate n.toNat s)))
  | .vInt n, .vStr s => .ok (.vStr (String.join (List.replicate n.toNat s)))
  | _, _ => .error .typeError

/-- Python `a / b` on queue entries: true division, `ZeroDivisionError` on a
zero divisor (a float is zero iff its numerator is zero). -/
def pyDiv : PyVal → PyVal → Except PyErr PyVal
  | .vInt a, .vInt b =>
    if b = 0 then .error .zeroDivisionError else .ok (.vFloat (qDiv (qOfInt a) (qOfInt b)))
  | .vInt a, .vFloat b =>
    if b.num = 0 then .error .zeroDivisionError else .ok (.vFloat (qDiv (qOfInt a) b))
  | .vFloat a, .vInt b =>
    if b = 0 then .error .zeroDivisionError else .ok (.vFloat (qDiv a (qOfInt b)))
  | .vFloat a, .vFloat b =>
    if b.num = 0 then .error .zeroDivisionError else .ok (.vFloat (qDiv a b))
  | _, _ => .error .typeError

def digitVal (c : Char) : ℕ := c.toNat - 48

/-- Value of a decimal digit run, most significant digit first. -/
def digitsVal (cs : List Char) : ℕ := cs.foldl (fun a c => 10 * a + digitVal c) 0

def digitsVal? (cs : List Char) : Option ℕ :=
  if cs ≠ [] ∧ cs.all Char.isDigit then some (digitsVal cs) else none

/-- Python `int(s)` on the strings that can occur in the output queue: an
optional sign followed by a nonempty digit run; anything else raises
`ValueError`. -/
def pyInt? (s : String) : Option ℤ :=
  match s.data with
  | '+' :: rest => (digitsVal? rest).map (fun n => (n : ℤ))
  | '-' :: rest => (digitsVal? rest).map (fun n => -(n : ℤ))
  | cs => (digitsVal? cs).map (fun n => (n : ℤ))

/-- Python `int(output_queue[i])` for any queue entry; `int` of a float
truncates toward zero. -/
def pyToInt : PyVal → Except PyErr ℤ
  | .vInt n => .ok n
  | .vFloat q => .ok (q.num.tdiv (q.den : ℤ))
  | .vStr s =>
    match pyInt? s with
    | some n => .ok n
    | none => .error .valueError

/-- Resolve a (possibly negative) Python list index against a list length. -/
def pyIdx? (len : ℕ) (i : ℤ) : Option ℕ :=
  if 0 ≤ i then (if i < (len : ℤ) then some i.toNat else none)
  else (if 0 ≤ i + (len : ℤ) then some (i + (len : ℤ)).toNat else none)

/-- Python `q[i]` with negative-index wraparound; `IndexError` out of range. -/
def pyGet (q : List PyVal) (i : ℤ) : Except PyErr PyVal :=
  match pyIdx? q.length i with
  | some k =>
    match q[k]? with
    | some v => .ok v
    | none => .error .indexError
  | none => .error .indexError

/-- Python `q.pop(i)`. -/
def pyPop (q : List PyVal) (i : ℤ) : Except PyErr (PyVal × List PyVal) :=
  match pyIdx? q.length i with
  | some k =>
    match q[k]? with
    | some v => .ok (v, q.eraseIdx k)
    | none => .error .indexError
  | none => .error .indexError

/-- Python `q[i] = v`; only used right after a successful read at `i`, so the
out-of-range fallback is unreachable. -/
def pySet (q : List PyVal) (i : ℤ) (v : PyVal) : List PyVal :=
  match pyIdx? q.length i with
  | some k => q.set k v
  | none => q

/-- Python `q.insert(i, v)` clamps the position and never fails. -/
def pyInsertPos (len : ℕ) (i : ℤ) : ℕ :=
  if 0 ≤ i then min i.toNat len else (i + (len : ℤ)).toNat

def pyInsert (q : List PyVal) (i : ℤ) (v : PyVal) : List PyVal :=
  q.insertIdx (pyInsertPos q.length i) v

def opStrings : List String := ["+", "-", "*", "/"]

/-- The test `output_queue[i] in operations.keys()`. -/
def isOpVal : PyVal → Bool
  | .vStr s => s == "+" || s == "-" || s == "*" || s == "/"
  | _ => false

def opOf : PyVal → String
  | .vStr s => s
  | _ => ""

/-- Dispatch of the Python `match` on the popped operator string. -/
def applyOp (op : String) (a b : PyVal) : Except PyErr PyVal :=
  if op = "+" then pyAdd a b
  else if op = "-" then pySub a b
  else if op = "*" then pyMul a b
  else pyDiv a b

/-- One iteration of the postfix-evaluation `while` loop of
`check_expression`: either an uncaught exception, the early
`return (False, "Numbers mismatched")`, a continuation state, or loop exit. -/
inductive StepRes where
  | err (e : PyErr)
  | retr (r : Bool × String) (nums : List ℤ)
  | cont (q : List PyVal) (i : ℤ) (nums : List ℤ)
  | finish (q : List PyVal) (nums : List ℤ)
deriving DecidableEq, Repr

def evalStep (q : List PyVal) (i : ℤ) (nums : List ℤ) : StepRes :=
  if i < (q.length : ℤ) then
    match pyGet q i with
    | .error e => .err e
    | .ok v =>
      if isOpVal v then
        match pyPop q i with
        | .error e => .err e
        | .ok (_, q1) =>
          match pyPop q1 (i - 2) with
          | .error e => .err e
          | .ok (a, q2) =>
            match pyPop q2 (i - 2) with
            | .error e => .err e
            | .ok (b, q3) =>
              match applyOp (opOf v) a b with
              | .error e => .err e
              | .ok c => .cont (pyInsert q3 (i - 2) c) (i - 1) nums
      else
        match pyToInt v with
        | .error e => .err e
        | .ok n =>
          let q' := pySet q i (.vInt n)
          if n ∈ nums then .cont q' (i + 1) (nums.erase n)
          else .retr (false, "Numbers mismatched") nums
  else .finish q nums

/-- Result of the whole postfix loop: an early return carrying the (mutated)
card list, or normal fall-through with the final queue and card list. -/
inductive EvalOut where
  | ret (r : Bool × String) (nums : List ℤ)
  | done (q : List PyVal) (nums : List ℤ)
deriving DecidableEq, Repr

/-- Every loop iteration strictly decreases this quantity, so it bounds the
number of iterations and serves as structural fuel (see `evalStep_cont_lt`
below). -/
def evalMeasure (q : List PyVal) (i : ℤ) : ℕ :=
  q.length + ((q.length : ℤ) - i).toNat

def evalLoopAux : ℕ → List PyVal → ℤ → List ℤ → Except PyErr EvalOut
  | 0, q, _, nums => .ok (.done q nums)
  | fuel + 1, q, i, nums =>
    match evalStep q i nums with
    | .err e => .error e
    | .retr r nums' => .ok (.ret r nums')
    | .finish q' nums' => .ok (.done q' nums')
    | .cont q' i' nums' => evalLoopAux fuel q' i' nums'

def evalLoop (q : List PyVal) (i : ℤ) (nums : List ℤ) : Except PyErr EvalOut :=
  evalLoopAux (evalMeasure q i + 1) q i nums

def opChars : List Char := ['+', '-', '*', '/']

/-- The `operations` dict maps `+`,`-` to 2 and `*`,`/` to 1 (a smaller
number means higher precedence). -/
def prec (c : Char) : ℕ := if c = '+' ∨ c = '-' then 2 else 1

/-- Shunting-yard state: output queue, operator stack (head is the Python
stack top) and the `was_num` digit-accumulation flag. -/
structure SYSt where
  out : List String
  ops : List Char
  wasNum : Bool
deriving DecidableEq, Repr

/-- Pops `while len(stack) > 0 and stack[-1] in operations.keys() and
operations[stack[-1]] <= operations[i]`, collecting popped operators in pop
order. -/
def popWhile (pc : ℕ) : List Char → List Char × List String
  | [] => ([], [])
  | c :: rest =>
    if c ∈ opChars ∧ prec c ≤ pc then
      let r := popWhile pc rest
      (r.1, c.toString :: r.2)
    else (c :: rest, [])

/-- Pops until an opening bracket, discarding it; `none` when the stack runs
out (the `Brackets mismatched` early return). -/
def popToParen : List Char → Option (List Char × List String)
  | [] => none
  | c :: rest =>
    if c = '(' then some (rest, [])
    else
      match popToParen rest with
      | none => none
      | some (st, em) => some (st, c.toString :: em)

/-- The digit-accumulation assignment `output_queue[-1] = output_queue[-1] + i`.
On an empty queue Python would raise, but `was_num` is only ever true right
after an append, so that case is unreachable. -/
def appendLastChar : List String → Char → List String
  | [], _ => []
  | [s], c => [s.push c]
  | s :: rest, c => s :: appendLastChar rest c

/-- One character of the tokenize/shunting-yard `for` loop.  Characters
outside digits, operators and brackets fall through the `if/elif` chain and
are silently ignored. -/
def syChar (st : SYSt) (c : Char) : Except (Bool × String) SYSt :=
  if c.isDigit then
    if st.wasNum then .ok { st with out := appendLastChar st.out c }
    else .ok { st with out := st.out ++ [c.toString], wasNum := true }
  else if c ∈ opChars then
    let r := popWhile (prec c) st.ops
    .ok { out := st.out ++ r.2, ops := c :: r.1, wasNum := false }
  else if c = '(' then
    .ok { st with ops := '(' :: st.ops, wasNum := false }
  else if c = ')' then
    match popToParen st.ops with
    | none => .error (false, "Brackets mismatched")
    | some (ops', em) => .ok { out := st.out ++ em, ops := ops', wasNum := false }
  else .ok st

def syRun (cs : List Char) (st : SYSt) : Except (Bool × String) SYSt :=
  cs.foldlM syChar st

/-- The epilogue of `check_expression` after the postfix loop:
`print(output_queue[0])` subscripts the queue front (raising `IndexError` on
an empty queue), the leftover-cards check runs, and the final chained
comparison `24.1 >= output_queue[0] >= 23.9` decides the result (raising
`TypeError` when the queue front is still a string). -/
def finalCheck : List PyVal → List ℤ → Except PyErr ((Bool × String) × List ℤ)
  | [], _ => .error .indexError
  | v :: _, nums' =>
    if 0 < nums'.length then .ok ((false, "Didn\x27t use all the cards"), nums')
    else
      match toQ v with
      | none => .error .typeError
      | some x =>
        if qle tol239 x ∧ qle x tol241 then .ok ((true, "Correct!"), nums')
        else .ok ((false, "Result not 24"), nums')

/-- The postfix-evaluation phase of `check_expression` on the already-built
output queue. -/
def evalPhase (q : List PyVal) (nums : List ℤ) : Except PyErr ((Bool × String) × List ℤ) :=
  match evalLoop q 0 nums with
  | .error e => .error e
  | .ok (.ret r nums') => .ok (r, nums')
  | .ok (.done q' nums') => finalCheck q' nums'

/-- `check_expression(nums, expression)` from `app/checker.py`, as written.
The second component of a normal result is the card list as the caller
observes it after the call (the code removes matched cards from the caller's
own list); a `PyErr` is an exception the code lets escape.  After the
character loop, `output_queue.extend(operator_stack[::-1])` appends the
remaining operator stack top first. -/
def check_expression (nums : List ℤ) (expression : String) :
    Except PyErr ((Bool × String) × List ℤ) :=
  match syRun expression.data { out := [], ops := [], wasNum := false } with
  | .error r => .ok (r, nums)
  | .ok st => evalPhase ((st.out ++ st.ops.map Char.toString).map PyVal.vStr) nums

/-- The `(ok, message)` pair `check_expression` hands back to its caller. -/
def check_result (nums : List ℤ) (expression : String) :
    Except PyErr (Bool × String) :=
  (check_expression nums expression).map (fun r => r.1)

/-- The `possible_vals` list built by `gather` for a chosen pair; a division
is added only when the divisor value is truthy, i.e. nonzero, i.e. has a
nonzero numerator. -/
def combineVals (c1 c2 : ℚ × String) : List (ℚ × String) :=
  [ (qAdd c1.1 c2.1, "(" ++ c1.2 ++ " + " ++ c2.2 ++ ")"),
    (qSub c1.1 c2.1, "(" ++ c1.2 ++ " - " ++ c2.2 ++ ")"),
    (qSub c2.1 c1.1, "(" ++ c2.2 ++ " - " ++ c1.2 ++ ")"),
    (qMul c1.1 c2.1, "(" ++ c1.2 ++ " * " ++ c2.2 ++ ")") ]
  ++ (if c2.1.num ≠ 0 then [(qDiv c1.1 c2.1, "(" ++ c1.2 ++ " / " ++ c2.2 ++ ")")] else [])
  ++ (if c1.1.num ≠ 0 then [(qDiv c2.1 c1.1, "(" ++ c2.2 ++ " / " ++ c1.2 ++ ")")] else [])

/-- `gather(nums)` from `app/solver.py`: for every index pair `i < j`, remove
the two chosen `[value, text]` elements (by value, as `list.remove` does) and
prepend each combination to the remaining elements. -/
def gather (nums : List (ℚ × String)) : List (List (ℚ × String)) :=
  (List.range nums.length).flatMap fun i =>
    (List.range' (i + 1) (nums.length - (i + 1))).flatMap fun j =>
      let card1 := nums.getD i (0, "")
      let card2 := nums.getD j (0, "")
      let remaining := (nums.erase card1).erase card2
      (combineVals card1 card2).map fun c => c :: remaining

/-- One iteration of the solver's `while` stack loop.  The stack is held with
its top (Python `stack[-1]`) at the head, so `stack.extend(gather(s))`
becomes prepending `(gather s).reverse`. -/
inductive SolveRes where
  | found (s : String)
  | next (st : List (List (ℚ × String)))
  | finished
deriving Repr

def solveStep : List (List (ℚ × String)) → SolveRes
  | [] => .finished
  | s :: rest =>
    if s.length = 1 then
      let sol := s.headD (0, "")
      if qle tolSolLo sol.1 ∧ qle sol.1 tolSolHi then .found sol.2 else .next rest
    else .next ((gather s).reverse ++ rest)

def stateWeight (n : ℕ) : ℕ := 6 ^ n * n.factorial ^ 2

/-- Fuel for the solver loop: expanding an `n`-element state pushes at most
`6·n·(n-1) < 6·n²` states of `n-1` elements each, so every iteration strictly
decreases this sum and it bounds the iteration count. -/
def solveMeasure (st : List (List (ℚ × String))) : ℕ :=
  (st.map fun s => stateWeight s.length).sum

/-- The solver loop with explicit fuel.  `some (some e)` means the loop
returned the expression `e`, `some none` means the work list genuinely
emptied, and `none` means the fuel ran out (which `solve24`'s fuel choice
makes unreachable). -/
def solveLoopAux : ℕ → List (List (ℚ × String)) → Option (Option String)
  | 0, _ => none
  | fuel + 1, st =>
    match solveStep st with
    | .finished => some none
    | .found s => some (some s)
    | .next st' => solveLoopAux fuel st'

/-- `solve24(nums)` from `app/solver.py`. -/
def solve24 (nums : List ℤ) : Option String :=
  let start := (gather (nums.map fun i => (qOfInt i, toString i))).reverse
  match solveLoopAux (solveMeasure start + 1) start with
  | some r => r
  | none => none


/-! Index lemmas for the Python list primitives. -/

theorem pyIdx?_natCast (len k : ℕ) (h : k < len) : pyIdx? len (k : ℤ) = some k := by
  unfold pyIdx?
  rw [if_pos (Int.natCast_nonneg k), if_pos (by exact_mod_cast h)]
  simp

theorem pyIdx?_lt {len : ℕ} {i : ℤ} {k : ℕ} (h : pyIdx? len i = some k) : k < len := by
  unfold pyIdx? at h
  split at h
  · split at h
    · rename_i h0 hlt
      injection h with h
      omega
    · exact absurd h (by simp)
  · split at h
    · rename_i h0 hge
      injection h with h
      omega
    · exact absurd h (by simp)

theorem getElem?_append_len {α : Type} (V : List α) (x : α) (R : List α) :
    (V ++ x :: R)[V.length]? = some x := by
  induction V with
  | nil => simp
  | cons a V ih => simpa using ih

theorem eraseIdx_append_len {α : Type} (V : List α) (x : α) (R : List α) :
    (V ++ x :: R).eraseIdx V.length = V ++ R := by
  induction V with
  | nil => rfl
  | cons a V ih => simp [List.eraseIdx, ih]

theorem set_append_len {α : Type} (V : List α) (x y : α) (R : List α) :
    (V ++ x :: R).set V.length y = V ++ y :: R := by
  induction V with
  | nil => rfl
  | cons a V ih => simpa [List.set] using ih

theorem insertIdx_append_len {α : Type} (V : List α) (y : α) (R : List α) :
    (V ++ R).insertIdx V.length y = V ++ y :: R := by
  induction V with
  | nil => rfl
  | cons a V ih => simpa [List.insertIdx] using ih

theorem pyGet_at (V : List PyVal) (x : PyVal) (R : List PyVal) :
    pyGet (V ++ x :: R) (V.length : ℤ) = .ok x := by
  unfold pyGet
  rw [pyIdx?_natCast _ _ (by simp)]
  show (match (V ++ x :: R)[V.length]? with
    | some v => Except.ok v
    | none => Except.error PyErr.indexError) = Except.ok x
  rw [getElem?_append_len]

theorem pyPop_at (V : List PyVal) (x : PyVal) (R : List PyVal) :
    pyPop (V ++ x :: R) (V.length : ℤ) = .ok (x, V ++ R) := by
  unfold pyPop
  rw [pyIdx?_natCast _ _ (by simp)]
  show (match (V ++ x :: R)[V.length]? with
    | some v => Except.ok (v, (V ++ x :: R).eraseIdx V.length)
    | none => Except.error PyErr.indexError) = Except.ok (x, V ++ R)
  rw [getElem?_append_len, eraseIdx_append_len]

theorem pySet_at (V : List PyVal) (x y : PyVal) (R : List PyVal) :
    pySet (V ++ x :: R) (V.length : ℤ) y = V ++ y :: R := by
  unfold pySet
  rw [pyIdx?_natCast _ _ (by simp)]
  simp [set_append_len]

theorem pyInsert_at (V : List PyVal) (y : PyVal) (R : List PyVal) :
    pyInsert (V ++ R) (V.length : ℤ) y = V ++ y :: R := by
  unfold pyInsert pyInsertPos
  rw [if_pos (Int.natCast_nonneg _)]
  have h1 : (V.length : ℤ).toNat = V.length := by omega
  rw [h1, min_eq_left (by simp)]
  exact insertIdx_append_len V y R

theorem pyPop_ok_length {q : List PyVal} {i : ℤ} {v : PyVal} {q' : List PyVal}
    (h : pyPop q i = .ok (v, q')) : q'.length + 1 = q.length := by
  unfold pyPop at h
  cases hidx : pyIdx? q.length i with
  | none => simp only [hidx] at h; exact absurd h (by simp)
  | some k =>
    simp only [hidx] at h
    cases hk : q[k]? with
    | none => simp only [hk] at h; exact absurd h (by simp)
    | some w =>
      simp only [hk, Except.ok.injEq, Prod.mk.injEq] at h
      have hlt := pyIdx?_lt hidx
      have hlen := List.length_eraseIdx_of_lt hlt
      rw [← h.2]
      omega

theorem pyInsert_length (q : List PyVal) (i : ℤ) (v : PyVal) :
    (pyInsert q i v).length = q.length + 1 := by
  unfold pyInsert
  refine List.length_insertIdx _ _ ?_
  unfold pyInsertPos
  split <;> omega

/-! Termination of the postfix loop: every `cont` step strictly decreases
`evalMeasure`, hence the fuel `evalMeasure q i + 1` never runs out and
`evalLoop` satisfies the one-step unfolding lemmas below. -/

theorem pySet_length (q : List PyVal) (i : ℤ) (v : PyVal) :
    (pySet q i v).length = q.length := by
  unfold pySet
  split <;> simp

theorem evalStep_cont_lt {q : List PyVal} {i : ℤ} {nums : List ℤ}
    {q' : List PyVal} {i' : ℤ} {nums' : List ℤ}
    (h : evalStep q i nums = .cont q' i' nums') :
    evalMeasure q' i' < evalMeasure q i := by
  unfold evalStep at h
  split at h
  case isFalse => exact absurd h (by simp)
  case isTrue hlen =>
    split at h
    case h_1 => exact absurd h (by simp)
    case h_2 v hget =>
      split at h
      case isTrue hop =>
        split at h
        case h_1 => exact absurd h (by simp)
        case h_2 v1 q1 hp1 =>
          split at h
          case h_1 => exact absurd h (by simp)
          case h_2 v2 q2 hp2 =>
            split at h
            case h_1 => exact absurd h (by simp)
            case h_2 v3 q3 hp3 =>
              split at h
              case h_1 => exact absurd h (by simp)
              case h_2 c happ =>
                injection h with h1 h2 h3
                subst h1 h2 h3
                have l1 := pyPop_ok_length hp1
                have l2 := pyPop_ok_length hp2
                have l3 := pyPop_ok_length hp3
                have l4 := pyInsert_length q3 (i - 2) c
                unfold evalMeasure
                omega
      case isFalse hop =>
        split at h
        case h_1 => exact absurd h (by simp)
        case h_2 n htoi =>
          split at h
          case isTrue hmem =>
            injection h with h1 h2 h3
            subst h1 h2 h3
            have l1 := pySet_length q i (.vInt n)
            unfold evalMeasure
            omega
          case isFalse => exact absurd h (by simp)

theorem evalLoopAux_stable (fuel : ℕ) : ∀ (q : List PyVal) (i : ℤ) (nums : List ℤ),
    evalMeasure q i < fuel → evalLoopAux fuel q i nums = evalLoop q i nums := by
  induction fuel using Nat.strong_induction_on with
  | _ fuel ih =>
    intro q i nums h
    obtain ⟨f, rfl⟩ : ∃ f, fuel = f + 1 := ⟨fuel - 1, by omega⟩
    rw [evalLoop]
    cases hstep : evalStep q i nums with
    | err e => simp only [evalLoopAux, hstep]
    | retr r nums' => simp only [evalLoopAux, hstep]
    | finish q' nums' => simp only [evalLoopAux, hstep]
    | cont q' i' nums' =>
      have hlt := evalStep_cont_lt hstep
      simp only [evalLoopAux, hstep]
      rw [ih f (by omega) q' i' nums' (by omega),
        ih (evalMeasure q i) (by omega) q' i' nums' (by omega)]

theorem evalLoop_cont {q : List PyVal} {i : ℤ} {nums : List ℤ}
    {q' : List PyVal} {i' : ℤ} {nums' : List ℤ}
    (h : evalStep q i nums = .cont q' i' nums') :
    evalLoop q i nums = evalLoop q' i' nums' := by
  rw [evalLoop]
  simp only [evalLoopAux, h]
  exact evalLoopAux_stable _ _ _ _ (evalStep_cont_lt h)

theorem evalLoop_finish {q : List PyVal} {i : ℤ} {nums : List ℤ}
    {q' : List PyVal} {nums' : List ℤ}
    (h : evalStep q i nums = .finish q' nums') :
    evalLoop q i nums = .ok (.done q' nums') := by
  rw [evalLoop]
  simp only [evalLoopAux, h]

/-! Abstract syntax of arithmetic expressions over digit-run literals, its
real-valued (exact rational) semantics, its postfix form, and its literal
leaves.  `evalQ` computes with the structural rational operations; the
lemmas right below restate it with Mathlib's field operations. -/

inductive Exp where
  | num (cs : List Char)
  | add (a b : Exp)
  | sub (a b : Exp)
  | mul (a b : Exp)
  | div (a b : Exp)

def evalQ : Exp → ℚ
  | .num cs => qOfInt ((digitsVal cs : ℤ))
  | .add a b => qAdd (evalQ a) (evalQ b)
  | .sub a b => qSub (evalQ a) (evalQ b)
  | .mul a b => qMul (evalQ a) (evalQ b)
  | .div a b => qDiv (evalQ a) (evalQ b)

theorem evalQ_num (cs : List Char) : evalQ (.num cs) = ((digitsVal cs : ℚ)) := by
  rw [evalQ, qOfInt_eq]; push_cast; rfl

theorem evalQ_add (a b : Exp) : evalQ (.add a b) = evalQ a + evalQ b := by
  rw [evalQ, qAdd_eq]

theorem evalQ_sub (a b : Exp) : evalQ (.sub a b) = evalQ a - evalQ b := by
  rw [evalQ, qSub_eq]

theorem evalQ_mul (a b : Exp) : evalQ (.mul a b) = evalQ a * evalQ b := by
  rw [evalQ, qMul_eq]

theorem evalQ_div (a b : Exp) : evalQ (.div a b) = evalQ a / evalQ b := by
  rw [evalQ, qDiv_eq]

/-- The integer literal values of an expression, in left-to-right order. -/
def leaves : Exp → List ℤ
  | .num cs => [((digitsVal cs : ℤ))]
  | .add a b => leaves a ++ leaves b
  | .sub a b => leaves a ++ leaves b
  | .mul a b => leaves a ++ leaves b
  | .div a b => leaves a ++ leaves b

/-- The postfix (reverse Polish) token strings of an expression. -/
def postTokens : Exp → List String
  | .num cs => [String.mk cs]
  | .add a b => postTokens a ++ postTokens b ++ ["+"]
  | .sub a b => postTokens a ++ postTokens b ++ ["-"]
  | .mul a b => postTokens a ++ postTokens b ++ ["*"]
  | .div a b => postTokens a ++ postTokens b ++ ["/"]

/-- No division node has a zero-valued right operand. -/
def noDivZero : Exp → Bool
  | .num _ => true
  | .add a b => noDivZero a && noDivZero b
  | .sub a b => noDivZero a && noDivZero b
  | .mul a b => noDivZero a && noDivZero b
  | .div a b => noDivZero a && noDivZero b && ((evalQ b).num != 0)

/-- Every literal is a nonempty digit run. -/
def expWf : Exp → Bool
  | .num cs => !cs.isEmpty && cs.all Char.isDigit
  | .add a b => expWf a && expWf b
  | .sub a b => expWf a && expWf b
  | .mul a b => expWf a && expWf b
  | .div a b => expWf a && expWf b

/-- `v` is a Python number of rational value `x`. -/
def IsNum (v : PyVal) (x : ℚ) : Prop := toQ v = some x

theorem pyInt?_digits (cs : List Char) (h1 : cs ≠ []) (h2 : cs.all Char.isDigit) :
    pyInt? (String.mk cs) = some ((digitsVal cs : ℤ)) := by
  obtain ⟨c, cs', rfl⟩ := List.exists_cons_of_ne_nil h1
  have hc : c.isDigit = true := by
    have := List.all_eq_true.mp h2 c (by simp)
    simpa using this
  unfold pyInt?
  split
  · rename_i rest heq
    injection heq with h3 h4
    rw [h3] at hc
    exact absurd hc (by decide)
  · rename_i rest heq
    injection heq with h3 h4
    rw [h3] at hc
    exact absurd hc (by decide)
  · rw [digitsVal?, if_pos ⟨List.cons_ne_nil c cs', h2⟩]
    rfl

theorem isOpVal_digits (cs : List Char) (h1 : cs ≠ []) (h2 : cs.all Char.isDigit) :
    isOpVal (.vStr (String.mk cs)) = false := by
  obtain ⟨c, cs', rfl⟩ := List.exists_cons_of_ne_nil h1
  have hc : c.isDigit = true := by
    have := List.all_eq_true.mp h2 c (by simp)
    simpa using this
  have hne : ∀ t : String, t.data.length = 1 → ¬t.data.headD ' ' = c →
      (String.mk (c :: cs') == t) = false := by
    intro t hlen hhd
    rw [beq_eq_false_iff_ne]
    intro he
    apply hhd
    rw [← he]
    rfl
  have e1 : (String.mk (c :: cs') == "+") = false :=
    hne "+" rfl (fun he => absurd (he ▸ hc) (by decide))
  have e2 : (String.mk (c :: cs') == "-") = false :=
    hne "-" rfl (fun he => absurd (he ▸ hc) (by decide))
  have e3 : (String.mk (c :: cs') == "*") = false :=
    hne "*" rfl (fun he => absurd (he ▸ hc) (by decide))
  have e4 : (String.mk (c :: cs') == "/") = false :=
    hne "/" rfl (fun he => absurd (he ▸ hc) (by decide))
  show (String.mk (c :: cs') == "+" || String.mk (c :: cs') == "-" ||
    String.mk (c :: cs') == "*" || String.mk (c :: cs') == "/") = false
  rw [e1, e2, e3, e4]
  rfl

theorem qOfInt_zero_iff (n : ℤ) : qOfInt n = 0 ↔ n = 0 := by
  rw [qOfInt_eq]
  exact_mod_cast Int.cast_eq_zero (α := ℚ)

theorem pyAdd_num {a b : PyVal} {x y : ℚ} (ha : IsNum a x) (hb : IsNum b y) :
    ∃ c, pyAdd a b = .ok c ∧ IsNum c (x + y) := by
  unfold IsNum at *
  cases a with
  | vStr s => simp [toQ] at ha
  | vInt m =>
    simp only [toQ, Option.some.injEq] at ha
    cases b with
    | vStr s => simp [toQ] at hb
    | vInt n =>
      simp only [toQ, Option.some.injEq] at hb
      refine ⟨.vInt (m + n), rfl, ?_⟩
      simp only [toQ, Option.some.injEq]
      rw [← ha, ← hb, qOfInt_eq, qOfInt_eq, qOfInt_eq]
      push_cast
      ring
    | vFloat f =>
      simp only [toQ, Option.some.injEq] at hb
      exact ⟨.vFloat (qAdd (qOfInt m) f), rfl, by
        simp only [toQ, Option.some.injEq]; rw [qAdd_eq, ha, hb]⟩
  | vFloat g =>
    simp only [toQ, Option.some.injEq] at ha
    cases b with
    | vStr s => simp [toQ] at hb
    | vInt n =>
      simp only [toQ, Option.some.injEq] at hb
      exact ⟨.vFloat (qAdd g (qOfInt n)), rfl, by
        simp only [toQ, Option.some.injEq]; rw [qAdd_eq, ha, hb]⟩
    | vFloat f =>
      simp only [toQ, Option.some.injEq] at hb
      exact ⟨.vFloat (qAdd g f), rfl, by
        simp only [toQ, Option.some.injEq]; rw [qAdd_eq, ha, hb]⟩

theorem pySub_num {a b : PyVal} {x y : ℚ} (ha : IsNum a x) (hb : IsNum b y) :
    ∃ c, pySub a b = .ok c ∧ IsNum c (x - y) := by
  unfold IsNum at *
  cases a with
  | vStr s => simp [toQ] at ha
  | vInt m =>
    simp only [toQ, Option.some.injEq] at ha
    cases b with
    | vStr s => simp [toQ] at hb
    | vInt n =>
      simp only [toQ, Option.some.injEq] at hb
      refine ⟨.vInt (m - n), rfl, ?_⟩
      simp only [toQ, Option.some.injEq]
      rw [← ha, ← hb, qOfInt_eq, qOfInt_eq, qOfInt_eq]
      push_cast
      ring
    | vFloat f =>
      simp only [toQ, Option.some.injEq] at hb
      exact ⟨.vFloat (qSub (qOfInt m) f), rfl, by
        simp only [toQ, Option.some.injEq]; rw [qSub_eq, ha, hb]⟩
  | vFloat g =>
    simp only [toQ, Option.some.injEq] at ha
    cases b with
    | vStr s => simp [toQ] at hb
    | vInt n =>
      simp only [toQ, Option.some.injEq] at hb
      exact ⟨.vFloat (qSub g (qOfInt n)), rfl, by
        simp only [toQ, Option.some.injEq]; rw [qSub_eq, ha, hb]⟩
    | vFloat f =>
      simp only [toQ, Option.some.injEq] at hb
      exact ⟨.vFloat (qSub g f), rfl, by
        simp only [toQ, Option.some.injEq]; rw [qSub_eq, ha, hb]⟩

theorem pyMul_num {a b : PyVal} {x y : ℚ} (ha : IsNum a x) (hb : IsNum b y) :
    ∃ c, pyMul a b = .ok c ∧ IsNum c (x * y) := by
  unfold IsNum at *
  cases a with
  | vStr s => simp [toQ] at ha
  | vInt m =>
    simp only [toQ, Option.some.injEq] at ha
    cases b with
    | vStr s => simp [toQ] at hb
    | vInt n =>
      simp only [toQ, Option.some.injEq] at hb
      refine ⟨.vInt (m * n), rfl, ?_⟩
      simp only [toQ, Option.some.injEq]
      rw [← ha, ← hb, qOfInt_eq, qOfInt_eq, qOfInt_eq]
      push_cast
      ring
    | vFloat f =>
      simp only [toQ, Option.some.injEq] at hb
      exact ⟨.vFloat (qMul (qOfInt m) f), rfl, by
        simp only [toQ, Option.some.injEq]; rw [qMul_eq, ha, hb]⟩
  | vFloat g =>
    simp only [toQ, Option.some.injEq] at ha
    cases b with
    | vStr s => simp [toQ] at hb
    | vInt n =>
      simp only [toQ, Option.some.injEq] at hb
      exact ⟨.vFloat (qMul g (qOfInt n)), rfl, by
        simp only [toQ, Option.some.injEq]; rw [qMul_eq, ha, hb]⟩
    | vFloat f =>
      simp only [toQ, Option.some.injEq] at hb
      exact ⟨.vFloat (qMul g f), rfl, by
        simp only [toQ, Option.some.injEq]; rw [qMul_eq, ha, hb]⟩

theorem pyDiv_num {a b : PyVal} {x y : ℚ} (ha : IsNum a x) (hb : IsNum b y)
    (hy : y ≠ 0) : ∃ c, pyDiv a b = .ok c ∧ IsNum c (x / y) := by
  unfold IsNum at *
  cases a with
  | vStr s => simp [toQ] at ha
  | vInt m =>
    simp only [toQ, Option.some.injEq] at ha
    cases b with
    | vStr s => simp [toQ] at hb
    | vInt n =>
      simp only [toQ, Option.some.injEq] at hb
      have hn : ¬n = 0 := fun h0 => hy (by rw [← hb, h0]; rfl)
      refine ⟨.vFloat (qDiv (qOfInt m) (qOfInt n)), ?_, ?_⟩
      · rw [pyDiv, if_neg hn]
      · simp only [toQ, Option.some.injEq]
        rw [qDiv_eq, ha, hb]
    | vFloat f =>
      simp only [toQ, Option.some.injEq] at hb
      have hn : ¬f.num = 0 := fun h0 => hy (hb ▸ Rat.num_eq_zero.mp h0)
      refine ⟨.vFloat (qDiv (qOfInt m) f), ?_, ?_⟩
      · rw [pyDiv, if_neg hn]
      · simp only [toQ, Option.some.injEq]
        rw [qDiv_eq, ha, hb]
  | vFloat g =>
    simp only [toQ, Option.some.injEq] at ha
    cases b with
    | vStr s => simp [toQ] at hb
    | vInt n =>
      simp only [toQ, Option.some.injEq] at hb
      have hn : ¬n = 0 := fun h0 => hy (by rw [← hb, h0]; rfl)
      refine ⟨.vFloat (qDiv g (qOfInt n)), ?_, ?_⟩
      · rw [pyDiv, if_neg hn]
      · simp only [toQ, Option.some.injEq]
        rw [qDiv_eq, ha, hb]
    | vFloat f =>
      simp only [toQ, Option.some.injEq] at hb
      have hn : ¬f.num = 0 := fun h0 => hy (hb ▸ Rat.num_eq_zero.mp h0)
      refine ⟨.vFloat (qDiv g f), ?_, ?_⟩
      · rw [pyDiv, if_neg hn]
      · simp only [toQ, Option.some.injEq]
        rw [qDiv_eq, ha, hb]

/-- Semantics of the four operator strings. -/
def opDenote (op : String) (x y : ℚ) : ℚ :=
  if op = "+" then x + y
  else if op = "-" then x - y
  else if op = "*" then x * y
  else x / y

theorem applyOp_num {op : String} {a b : PyVal} {x y : ℚ}
    (hop : op = "+" ∨ op = "-" ∨ op = "*" ∨ op = "/")
    (ha : IsNum a x) (hb : IsNum b y) (hdiv : op = "/" → y ≠ 0) :
    ∃ c, applyOp op a b = .ok c ∧ IsNum c (opDenote op x y) := by
  rcases hop with rfl | rfl | rfl | rfl
  · simpa [applyOp, opDenote] using pyAdd_num ha hb
  · simpa [applyOp, opDenote] using pySub_num ha hb
  · simpa [applyOp, opDenote] using pyMul_num ha hb
  · simpa [applyOp, opDenote] using pyDiv_num ha hb (hdiv rfl)

theorem isOpVal_op {op : String} (hop : op = "+" ∨ op = "-" ∨ op = "*" ∨ op = "/") :
    isOpVal (.vStr op) = true := by
  rcases hop with rfl | rfl | rfl | rfl <;> rfl

theorem evalStep_num (V : List PyVal) (cs : List Char) (R : List PyVal) (nums : List ℤ)
    (h1 : cs ≠ []) (h2 : cs.all Char.isDigit)
    (hmem : ((digitsVal cs : ℤ)) ∈ nums) :
    evalStep (V ++ .vStr (String.mk cs) :: R) (V.length : ℤ) nums =
      .cont (V ++ .vInt ((digitsVal cs : ℤ)) :: R) ((V.length : ℤ) + 1)
        (nums.erase ((digitsVal cs : ℤ))) := by
  have hl : (V.length : ℤ) < ((V ++ PyVal.vStr (String.mk cs) :: R).length : ℤ) := by
    have h : V.length < (V ++ PyVal.vStr (String.mk cs) :: R).length := by
      simp [List.length_append]
    exact_mod_cast h
  unfold evalStep
  rw [if_pos hl]
  simp only [pyGet_at, isOpVal_digits cs h1 h2, Bool.false_eq_true, if_false,
    pyToInt, pyInt?_digits cs h1 h2, pySet_at, if_pos hmem]

theorem evalStep_op (V : List PyVal) (wa wb : PyVal) (op : String) (R : List PyVal)
    (nums : List ℤ) {x y : ℚ}
    (hop : op = "+" ∨ op = "-" ∨ op = "*" ∨ op = "/")
    (ha : IsNum wa x) (hb : IsNum wb y) (hdiv : op = "/" → y ≠ 0) :
    ∃ w, IsNum w (opDenote op x y) ∧
      evalStep (V ++ wa :: wb :: .vStr op :: R) ((V.length : ℤ) + 2) nums =
        .cont (V ++ w :: R) ((V.length : ℤ) + 1) nums := by
  obtain ⟨w, hw1, hw2⟩ := applyOp_num hop ha hb hdiv
  refine ⟨w, hw2, ?_⟩
  have hsplit : V ++ wa :: wb :: PyVal.vStr op :: R =
      (V ++ [wa, wb]) ++ PyVal.vStr op :: R := by simp
  have hidx : (V.length : ℤ) + 2 = (((V ++ [wa, wb]).length : ℕ) : ℤ) := by
    simp [List.length_append]
  have hl : ((V.length : ℤ) + 2) < ((V ++ wa :: wb :: PyVal.vStr op :: R).length : ℤ) := by
    have h : V.length + 2 < (V ++ wa :: wb :: PyVal.vStr op :: R).length := by
      simp [List.length_append]
    omega
  unfold evalStep
  rw [if_pos hl]
  rw [hsplit, hidx]
  simp only [pyGet_at, pyPop_at, isOpVal_op hop, if_true]
  have h2' : (((V ++ [wa, wb]).length : ℕ) : ℤ) - 2 = (V.length : ℤ) := by
    simp [List.length_append]
  rw [h2']
  have hassoc1 : (V ++ [wa, wb]) ++ R = V ++ wa :: wb :: R := by simp
  rw [hassoc1]
  have hpop2 : pyPop (V ++ wa :: wb :: R) (V.length : ℤ) = .ok (wa, V ++ wb :: R) :=
    pyPop_at V wa (wb :: R)
  rw [hpop2]
  simp only [pyPop_at]
  rw [opOf, hw1]
  simp only [pyInsert_at]
  have hi' : (((V ++ [wa, wb]).length : ℕ) : ℤ) - 1 = (V.length : ℤ) + 1 := by
    simp only [List.length_append, List.length_cons, List.length_nil]
    push_cast
    omega
  rw [hi']

theorem subperm_left_of_append {la lb nums : List ℤ} (h : List.Subperm (la ++ lb) nums) :
    List.Subperm la nums :=
  ((List.sublist_append_left la lb).subperm).trans h

theorem subperm_right_diff {la lb nums : List ℤ} (h : List.Subperm (la ++ lb) nums) :
    List.Subperm lb (nums.diff la) := by
  have h1 : (↑(la ++ lb) : Multiset ℤ) ≤ (↑nums : Multiset ℤ) := Multiset.coe_le.mpr h
  rw [← Multiset.coe_add] at h1
  have hla : (↑la : Multiset ℤ) ≤ (↑nums : Multiset ℤ) :=
    le_trans (Multiset.le_add_right _ _) h1
  have h2 : (↑lb : Multiset ℤ) ≤ (↑nums : Multiset ℤ) - (↑la : Multiset ℤ) :=
    (le_tsub_iff_left hla).mpr h1
  rw [Multiset.coe_sub] at h2
  exact Multiset.coe_le.mp h2

/-- Evaluating the postfix form of a well-formed expression: the loop turns
the token block into a single numeric value of the exact semantics, removing
the literal leaves from the card list one by one. -/
theorem evalLoop_expr (e : Exp) : ∀ (V R : List PyVal) (nums : List ℤ),
    expWf e = true → noDivZero e = true → List.Subperm (leaves e) nums →
    ∃ w, IsNum w (evalQ e) ∧
      evalLoop (V ++ (postTokens e).map PyVal.vStr ++ R) (V.length : ℤ) nums =
        evalLoop (V ++ w :: R) ((V.length : ℤ) + 1) (nums.diff (leaves e)) := by
  induction e with
  | num cs =>
    intro V R nums hwf hdz hsub
    rw [expWf, Bool.and_eq_true] at hwf
    have h1 : cs ≠ [] := by
      intro h
      rw [h] at hwf
      exact absurd hwf.1 (by decide)
    have h2 : cs.all Char.isDigit := hwf.2
    have hmem : ((digitsVal cs : ℤ)) ∈ nums := by
      have := hsub
      rw [leaves] at this
      exact List.singleton_subperm_iff.mp this
    refine ⟨.vInt ((digitsVal cs : ℤ)), rfl, ?_⟩
    have hstep := evalStep_num V cs R nums h1 h2 hmem
    have hmain := evalLoop_cont hstep
    rw [postTokens, leaves, List.diff_cons, List.diff_nil]
    simpa using hmain
  | add a b iha ihb =>
    intro V R nums hwf hdz hsub
    rw [expWf, Bool.and_eq_true] at hwf
    rw [noDivZero, Bool.and_eq_true] at hdz
    rw [leaves] at hsub ⊢
    obtain ⟨wa, hwa, ea⟩ := iha V (((postTokens b).map PyVal.vStr) ++ PyVal.vStr "+" :: R)
      nums hwf.1 hdz.1 (subperm_left_of_append hsub)
    obtain ⟨wb, hwb, eb⟩ := ihb (V ++ [wa]) (PyVal.vStr "+" :: R) (nums.diff (leaves a))
      hwf.2 hdz.2 (subperm_right_diff hsub)
    obtain ⟨w, hw, estep⟩ := evalStep_op V wa wb "+" R ((nums.diff (leaves a)).diff (leaves b))
      (Or.inl rfl) hwa hwb (by intro h; exact absurd h (by decide))
    refine ⟨w, by simpa [opDenote, evalQ_add] using hw, ?_⟩
    rw [postTokens]
    calc evalLoop (V ++ (postTokens a ++ postTokens b ++ ["+"]).map PyVal.vStr ++ R)
          (V.length : ℤ) nums
        = evalLoop (V ++ (postTokens a).map PyVal.vStr ++
            (((postTokens b).map PyVal.vStr) ++ PyVal.vStr "+" :: R)) (V.length : ℤ) nums := by
          simp [List.map_append]
      _ = evalLoop (V ++ wa :: (((postTokens b).map PyVal.vStr) ++ PyVal.vStr "+" :: R))
            ((V.length : ℤ) + 1) (nums.diff (leaves a)) := ea
      _ = evalLoop ((V ++ [wa]) ++ ((postTokens b).map PyVal.vStr) ++ (PyVal.vStr "+" :: R))
            (((V ++ [wa]).length : ℕ) : ℤ) (nums.diff (leaves a)) := by
          simp [List.length_append]
      _ = evalLoop ((V ++ [wa]) ++ wb :: (PyVal.vStr "+" :: R))
            ((((V ++ [wa]).length : ℕ) : ℤ) + 1) ((nums.diff (leaves a)).diff (leaves b)) := eb
      _ = evalLoop (V ++ wa :: wb :: PyVal.vStr "+" :: R) ((V.length : ℤ) + 2)
            ((nums.diff (leaves a)).diff (leaves b)) := by
          have h12 : (V.length : ℤ) + 2 = (V.length : ℤ) + 1 + 1 := by ring
          rw [h12]
          simp [List.length_append]
      _ = evalLoop (V ++ w :: R) ((V.length : ℤ) + 1) ((nums.diff (leaves a)).diff (leaves b)) :=
          evalLoop_cont estep
      _ = evalLoop (V ++ w :: R) ((V.length : ℤ) + 1) (nums.diff (leaves a ++ leaves b)) := by
          rw [List.diff_append]
  | sub a b iha ihb =>
    intro V R nums hwf hdz hsub
    rw [expWf, Bool.and_eq_true] at hwf
    rw [noDivZero, Bool.and_eq_true] at hdz
    rw [leaves] at hsub ⊢
    obtain ⟨wa, hwa, ea⟩ := iha V (((postTokens b).map PyVal.vStr) ++ PyVal.vStr "-" :: R)
      nums hwf.1 hdz.1 (subperm_left_of_append hsub)
    obtain ⟨wb, hwb, eb⟩ := ihb (V ++ [wa]) (PyVal.vStr "-" :: R) (nums.diff (leaves a))
      hwf.2 hdz.2 (subperm_right_diff hsub)
    obtain ⟨w, hw, estep⟩ := evalStep_op V wa wb "-" R ((nums.diff (leaves a)).diff (leaves b))
      (Or.inr (Or.inl rfl)) hwa hwb (by intro h; exact absurd h (by decide))
    refine ⟨w, by simpa [opDenote, evalQ_sub] using hw, ?_⟩
    rw [postTokens]
    calc evalLoop (V ++ (postTokens a ++ postTokens b ++ ["-"]).map PyVal.vStr ++ R)
          (V.length : ℤ) nums
        = evalLoop (V ++ (postTokens a).map PyVal.vStr ++
            (((postTokens b).map PyVal.vStr) ++ PyVal.vStr "-" :: R)) (V.length : ℤ) nums := by
          simp [List.map_append]
      _ = evalLoop (V ++ wa :: (((postTokens b).map PyVal.vStr) ++ PyVal.vStr "-" :: R))
            ((V.length : ℤ) + 1) (nums.diff (leaves a)) := ea
      _ = evalLoop ((V ++ [wa]) ++ ((postTokens b).map PyVal.vStr) ++ (PyVal.vStr "-" :: R))
            (((V ++ [wa]).length : ℕ) : ℤ) (nums.diff (leaves a)) := by
          simp [List.length_append]
      _ = evalLoop ((V ++ [wa]) ++ wb :: (PyVal.vStr "-" :: R))
            ((((V ++ [wa]).length : ℕ) : ℤ) + 1) ((nums.diff (leaves a)).diff (leaves b)) := eb
      _ = evalLoop (V ++ wa :: wb :: PyVal.vStr "-" :: R) ((V.length : ℤ) + 2)
            ((nums.diff (leaves a)).diff (leaves b)) := by
          have h12 : (V.length : ℤ) + 2 = (V.length : ℤ) + 1 + 1 := by ring
          rw [h12]
          simp [List.length_append]
      _ = evalLoop (V ++ w :: R) ((V.length : ℤ) + 1) ((nums.diff (leaves a)).diff (leaves b)) :=
          evalLoop_cont estep
      _ = evalLoop (V ++ w :: R) ((V.length : ℤ) + 1) (nums.diff (leaves a ++ leaves b)) := by
          rw [List.diff_append]
  | mul a b iha ihb =>
    intro V R nums hwf hdz hsub
    rw [expWf, Bool.and_eq_true] at hwf
    rw [noDivZero, Bool.and_eq_true] at hdz
    rw [leaves] at hsub ⊢
    obtain ⟨wa, hwa, ea⟩ := iha V (((postTokens b).map PyVal.vStr) ++ PyVal.vStr "*" :: R)
      nums hwf.1 hdz.1 (subperm_left_of_append hsub)
    obtain ⟨wb, hwb, eb⟩ := ihb (V ++ [wa]) (PyVal.vStr "*" :: R) (nums.diff (leaves a))
      hwf.2 hdz.2 (subperm_right_diff hsub)
    obtain ⟨w, hw, estep⟩ := evalStep_op V wa wb "*" R ((nums.diff (leaves a)).diff (leaves b))
      (Or.inr (Or.inr (Or.inl rfl))) hwa hwb (by intro h; exact absurd h (by decide))
    refine ⟨w, by simpa [opDenote, evalQ_mul] using hw, ?_⟩
    rw [postTokens]
    calc evalLoop (V ++ (postTokens a ++ postTokens b ++ ["*"]).map PyVal.vStr ++ R)
          (V.length : ℤ) nums
        = evalLoop (V ++ (postTokens a).map PyVal.vStr ++
            (((postTokens b).map PyVal.vStr) ++ PyVal.vStr "*" :: R)) (V.length : ℤ) nums := by
          simp [List.map_append]
      _ = evalLoop (V ++ wa :: (((postTokens b).map PyVal.vStr) ++ PyVal.vStr "*" :: R))
            ((V.length : ℤ) + 1) (nums.diff (leaves a)) := ea
      _ = evalLoop ((V ++ [wa]) ++ ((postTokens b).map PyVal.vStr) ++ (PyVal.vStr "*" :: R))
            (((V ++ [wa]).length : ℕ) : ℤ) (nums.diff (leaves a)) := by
          simp [List.length_append]
      _ = evalLoop ((V ++ [wa]) ++ wb :: (PyVal.vStr "*" :: R))
            ((((V ++ [wa]).length : ℕ) : ℤ) + 1) ((nums.diff (leaves a)).diff (leaves b)) := eb
      _ = evalLoop (V ++ wa :: wb :: PyVal.vStr "*" :: R) ((V.length : ℤ) + 2)
            ((nums.diff (leaves a)).diff (leaves b)) := by
          have h12 : (V.length : ℤ) + 2 = (V.length : ℤ) + 1 + 1 := by ring
          rw [h12]
          simp [List.length_append]
      _ = evalLoop (V ++ w :: R) ((V.length : ℤ) + 1) ((nums.diff (leaves a)).diff (leaves b)) :=
          evalLoop_cont estep
      _ = evalLoop (V ++ w :: R) ((V.length : ℤ) + 1) (nums.diff (leaves a ++ leaves b)) := by
          rw [List.diff_append]
  | div a b iha ihb =>
    intro V R nums hwf hdz hsub
    rw [expWf, Bool.and_eq_true] at hwf
    rw [noDivZero, Bool.and_eq_true, Bool.and_eq_true] at hdz
    have hnz : evalQ b ≠ 0 := by
      have := hdz.2
      rw [bne_iff_ne] at this
      exact fun h => this (by rw [h]; rfl)
    rw [leaves] at hsub ⊢
    obtain ⟨wa, hwa, ea⟩ := iha V (((postTokens b).map PyVal.vStr) ++ PyVal.vStr "/" :: R)
      nums hwf.1 hdz.1.1 (subperm_left_of_append hsub)
    obtain ⟨wb, hwb, eb⟩ := ihb (V ++ [wa]) (PyVal.vStr "/" :: R) (nums.diff (leaves a))
      hwf.2 hdz.1.2 (subperm_right_diff hsub)
    obtain ⟨w, hw, estep⟩ := evalStep_op V wa wb "/" R ((nums.diff (leaves a)).diff (leaves b))
      (Or.inr (Or.inr (Or.inr rfl))) hwa hwb (fun _ => hnz)
    refine ⟨w, by simpa [opDenote, evalQ_div] using hw, ?_⟩
    rw [postTokens]
    calc evalLoop (V ++ (postTokens a ++ postTokens b ++ ["/"]).map PyVal.vStr ++ R)
          (V.length : ℤ) nums
        = evalLoop (V ++ (postTokens a).map PyVal.vStr ++
            (((postTokens b).map PyVal.vStr) ++ PyVal.vStr "/" :: R)) (V.length : ℤ) nums := by
          simp [List.map_append]
      _ = evalLoop (V ++ wa :: (((postTokens b).map PyVal.vStr) ++ PyVal.vStr "/" :: R))
            ((V.length : ℤ) + 1) (nums.diff (leaves a)) := ea
      _ = evalLoop ((V ++ [wa]) ++ ((postTokens b).map PyVal.vStr) ++ (PyVal.vStr "/" :: R))
            (((V ++ [wa]).length : ℕ) : ℤ) (nums.diff (leaves a)) := by
          simp [List.length_append]
      _ = evalLoop ((V ++ [wa]) ++ wb :: (PyVal.vStr "/" :: R))
            ((((V ++ [wa]).length : ℕ) : ℤ) + 1) ((nums.diff (leaves a)).diff (leaves b)) := eb
      _ = evalLoop (V ++ wa :: wb :: PyVal.vStr "/" :: R) ((V.length : ℤ) + 2)
            ((nums.diff (leaves a)).diff (leaves b)) := by
          have h12 : (V.length : ℤ) + 2 = (V.length : ℤ) + 1 + 1 := by ring
          rw [h12]
          simp [List.length_append]
      _ = evalLoop (V ++ w :: R) ((V.length : ℤ) + 1) ((nums.diff (leaves a)).diff (leaves b)) :=
          evalLoop_cont estep
      _ = evalLoop (V ++ w :: R) ((V.length : ℤ) + 1) (nums.diff (leaves a ++ leaves b)) := by
          rw [List.diff_append]

/-! The grammar of well-formed infix expressions (the spec's token and
precedence rules): `e`-level strings are sums/differences of `t`-level
strings, which are products/quotients of `f`-level factors (literals and
parenthesized expressions).  Whitespace may be inserted anywhere; the
tokenizer ignores it. -/

inductive Lvl where
  | e | t | f

inductive Wf : Lvl → List Char → Exp → Prop where
  | num (cs : List Char) (h1 : cs ≠ []) (h2 : cs.all Char.isDigit) :
      Wf .f cs (.num cs)
  | paren {cs : List Char} {x : Exp} : Wf .e cs x → Wf .f ('(' :: cs ++ [')']) x
  | ft {cs : List Char} {x : Exp} : Wf .f cs x → Wf .t cs x
  | te {cs : List Char} {x : Exp} : Wf .t cs x → Wf .e cs x
  | mulT {cs ds : List Char} {a b : Exp} :
      Wf .t cs a → Wf .f ds b → Wf .t (cs ++ '*' :: ds) (.mul a b)
  | divT {cs ds : List Char} {a b : Exp} :
      Wf .t cs a → Wf .f ds b → Wf .t (cs ++ '/' :: ds) (.div a b)
  | addE {cs ds : List Char} {a b : Exp} :
      Wf .e cs a → Wf .t ds b → Wf .e (cs ++ '+' :: ds) (.add a b)
  | subE {cs ds : List Char} {a b : Exp} :
      Wf .e cs a → Wf .t ds b → Wf .e (cs ++ '-' :: ds) (.sub a b)
  | sp {lvl : Lvl} {cs ds : List Char} {x : Exp} :
      Wf lvl (cs ++ ds) x → Wf lvl (cs ++ ' ' :: ds) x

theorem wf_expWf : ∀ {lvl cs x}, Wf lvl cs x → expWf x = true := by
  intro lvl cs x h
  induction h with
  | num cs h1 h2 =>
    rw [expWf, Bool.and_eq_true]
    exact ⟨by simpa using h1, h2⟩
  | paren _ ih => exact ih
  | ft _ ih => exact ih
  | te _ ih => exact ih
  | mulT _ _ iha ihb => rw [expWf, Bool.and_eq_true]; exact ⟨iha, ihb⟩
  | divT _ _ iha ihb => rw [expWf, Bool.and_eq_true]; exact ⟨iha, ihb⟩
  | addE _ _ iha ihb => rw [expWf, Bool.and_eq_true]; exact ⟨iha, ihb⟩
  | subE _ _ iha ihb => rw [expWf, Bool.and_eq_true]; exact ⟨iha, ihb⟩
  | sp _ ih => exact ih

/-! Elementary facts about one step of the shunting-yard loop. -/

theorem syRun_nil (st : SYSt) : syRun [] st = .ok st := rfl

theorem syRun_cons (c : Char) (cs : List Char) (st : SYSt) :
    syRun (c :: cs) st = (syChar st c).bind (fun st' => syRun cs st') := by
  rw [syRun, List.foldlM_cons]
  rfl

theorem syRun_append (cs ds : List Char) (st : SYSt) :
    syRun (cs ++ ds) st = (syRun cs st).bind (fun st' => syRun ds st') := by
  rw [syRun, List.foldlM_append]
  rfl

theorem syChar_space (st : SYSt) : syChar st ' ' = .ok st := rfl

theorem syChar_lparen (st : SYSt) : syChar st '(' = .ok ⟨st.out, '(' :: st.ops, false⟩ := rfl

theorem syChar_op {c : Char} (st : SYSt)
    (h : c = '+' ∨ c = '-' ∨ c = '*' ∨ c = '/') :
    syChar st c = .ok ⟨st.out ++ (popWhile (prec c) st.ops).2,
      c :: (popWhile (prec c) st.ops).1, false⟩ := by
  rcases h with rfl | rfl | rfl | rfl <;> rfl

theorem syChar_rparen (st : SYSt) :
    syChar st ')' =
      match popToParen st.ops with
      | none => .error (false, "Brackets mismatched")
      | some (ops', em) => .ok ⟨st.out ++ em, ops', false⟩ := rfl

theorem syRun_space (cs ds : List Char) (st : SYSt) :
    syRun (cs ++ ' ' :: ds) st = syRun (cs ++ ds) st := by
  rw [syRun_append, syRun_append]
  cases syRun cs st with
  | error r => rfl
  | ok st' =>
    show syRun (' ' :: ds) st' = syRun ds st'
    rw [syRun_cons, syChar_space]
    rfl

theorem appendLastChar_append (out : List String) (t : String) (c : Char) :
    appendLastChar (out ++ [t]) c = out ++ [t.push c] := by
  induction out with
  | nil => rfl
  | cons s out ih =>
    cases out with
    | nil => rfl
    | cons x rest =>
      show s :: appendLastChar ((x :: rest) ++ [t]) c = s :: ((x :: rest) ++ [t.push c])
      rw [ih]

theorem syRun_digits_cont (ds : List Char) (h : ∀ c ∈ ds, c.isDigit = true) :
    ∀ (out : List String) (t : String) (ops : List Char),
    syRun ds ⟨out ++ [t], ops, true⟩ = .ok ⟨out ++ [t ++ String.mk ds], ops, true⟩ := by
  induction ds with
  | nil =>
    intro out t ops
    rw [syRun_nil]
    have : t ++ String.mk [] = t := by
      show String.mk (t.data ++ []) = t
      rw [List.append_nil]
    rw [this]
  | cons c ds ih =>
    intro out t ops
    have hc : c.isDigit = true := h c (by simp)
    rw [syRun_cons, syChar]
    rw [if_pos hc]
    show (Except.ok { out := appendLastChar (out ++ [t]) c, ops := ops, wasNum := true }).bind
        (fun st' => syRun ds st') = _
    rw [appendLastChar_append]
    show syRun ds ⟨out ++ [t.push c], ops, true⟩ = _
    rw [ih (fun d hd => h d (by simp [hd])) out (t.push c) ops]
    have : t.push c ++ String.mk ds = t ++ String.mk (c :: ds) := by
      show String.mk ((t.data ++ [c]) ++ ds) = String.mk (t.data ++ (c :: ds))
      rw [List.append_assoc]
      rfl
    rw [this]

theorem syRun_digits (cs : List Char) (h1 : cs ≠ []) (h2 : cs.all Char.isDigit) :
    ∀ (out : List String) (ops : List Char),
    syRun cs ⟨out, ops, false⟩ = .ok ⟨out ++ [String.mk cs], ops, true⟩ := by
  intro out ops
  obtain ⟨c, ds, rfl⟩ := List.exists_cons_of_ne_nil h1
  have hall := List.all_eq_true.mp h2
  have hc : c.isDigit = true := by simpa using hall c (by simp)
  rw [syRun_cons, syChar, if_pos hc]
  show (Except.ok { out := out ++ [c.toString], ops := ops, wasNum := true }).bind
      (fun st' => syRun ds st') = _
  show syRun ds ⟨out ++ [c.toString], ops, true⟩ = _
  rw [syRun_digits_cont ds (fun d hd => by simpa using hall d (by simp [hd])) out c.toString ops]
  have : c.toString ++ String.mk ds = String.mk (c :: ds) := rfl
  rw [this]

/-! The operator-stack pop loops. -/

/-- The pop loop for an incoming operator of precedence value `pc` stops at
this stack: empty, an opening bracket, or a strictly higher precedence
value. -/
def stackBlocks (pc : ℕ) : List Char → Prop
  | [] => True
  | c :: _ => c ∉ opChars ∨ pc < prec c

theorem popWhile_stack (pc : ℕ) : ∀ (B ops : List Char),
    (∀ c ∈ B, c ∈ opChars ∧ prec c ≤ pc) → stackBlocks pc ops →
    popWhile pc (B ++ ops) = (ops, B.map Char.toString) := by
  intro B
  induction B with
  | nil =>
    intro ops _ hstop
    cases ops with
    | nil => rfl
    | cons c rest =>
      have hcond : ¬(c ∈ opChars ∧ prec c ≤ pc) := by
        rw [stackBlocks] at hstop
        rcases hstop with h | h
        · exact fun hc => h hc.1
        · exact fun hc => absurd hc.2 (by omega)
      simp only [popWhile, if_neg hcond]
      rfl
  | cons c B ih =>
    intro ops hB hstop
    rw [List.cons_append]
    simp only [popWhile, if_pos (hB c (by simp)), ih ops (fun d hd => hB d (by simp [hd])) hstop]
    rfl

theorem opChars_ne_lparen {c : Char} (h : c ∈ opChars) : c ≠ '(' := by
  fin_cases h <;> decide

theorem popToParen_through : ∀ (B ops : List Char), (∀ c ∈ B, c ∈ opChars) →
    popToParen (B ++ '(' :: ops) = some (ops, B.map Char.toString) := by
  intro B
  induction B with
  | nil => intro ops _; rfl
  | cons c B ih =>
    intro ops hB
    rw [List.cons_append]
    simp only [popToParen, if_neg (opChars_ne_lparen (hB c (by simp))),
      ih ops (fun d hd => hB d (by simp [hd]))]
    rfl

theorem except_bind_ok {ε α β : Type} (a : α) (f : α → Except ε β) :
    (Except.ok a : Except ε α).bind f = f a := rfl

theorem char_toString_plus : Char.toString '+' = "+" := rfl

theorem char_toString_minus : Char.toString '-' = "-" := rfl

theorem char_toString_mul : Char.toString '*' = "*" := rfl

theorem char_toString_div : Char.toString '/' = "/" := rfl

theorem syChar_rparen_ok {st : SYSt} {ops' : List Char} {em : List String}
    (h : popToParen st.ops = some (ops', em)) :
    syChar st ')' = .ok ⟨st.out ++ em, ops', false⟩ := by
  rw [syChar_rparen, h]

/-- What the operator stack must look like for a `t`-level string to be
processed compositionally: the pop loop of an incoming `*` or `/` must not
reach into it. -/
def tBlockStk : List Char → Prop
  | [] => True
  | c :: _ => c = '(' ∨ c = '+' ∨ c = '-'

/-- Likewise for an `e`-level string and an incoming `+` or `-`. -/
def eBlockStk : List Char → Prop
  | [] => True
  | c :: _ => c = '('

theorem tBlockStk_of_eBlockStk {ops : List Char} (h : eBlockStk ops) : tBlockStk ops := by
  cases ops with
  | nil => trivial
  | cons c rest => exact Or.inl h

theorem stackBlocks_one {ops : List Char} (h : tBlockStk ops) : stackBlocks 1 ops := by
  cases ops with
  | nil => trivial
  | cons c rest =>
    rcases h with rfl | rfl | rfl
    · exact Or.inl (by decide)
    · exact Or.inr (by decide)
    · exact Or.inr (by decide)

theorem stackBlocks_two {ops : List Char} (h : eBlockStk ops) : stackBlocks 2 ops := by
  cases ops with
  | nil => trivial
  | cons c rest =>
    rw [eBlockStk] at h
    subst h
    exact Or.inl (by decide)

/-- The invariant the shunting-yard loop maintains while scanning a
well-formed string: at level `f` the whole postfix form is emitted and the
stack is untouched; at levels `t` and `e` a pending suffix `B` of operators
remains on the stack, with `postfix = emitted ++ B`. -/
def SyStmt : Lvl → List Char → Exp → Prop
  | .f, cs, x => ∀ (out : List String) (ops : List Char), ∃ wn,
      syRun cs ⟨out, ops, false⟩ = .ok ⟨out ++ postTokens x, ops, wn⟩
  | .t, cs, x => ∀ (out : List String) (ops : List Char), tBlockStk ops →
      ∃ A B wn, postTokens x = A ++ B.map Char.toString ∧
        (∀ c ∈ B, c = '*' ∨ c = '/') ∧
        syRun cs ⟨out, ops, false⟩ = .ok ⟨out ++ A, B ++ ops, wn⟩
  | .e, cs, x => ∀ (out : List String) (ops : List Char), eBlockStk ops →
      ∃ A B wn, postTokens x = A ++ B.map Char.toString ∧
        (∀ c ∈ B, c = '+' ∨ c = '-' ∨ c = '*' ∨ c = '/') ∧
        syRun cs ⟨out, ops, false⟩ = .ok ⟨out ++ A, B ++ ops, wn⟩

theorem syRun_wf : ∀ {lvl cs x}, Wf lvl cs x → SyStmt lvl cs x := by
  intro lvl cs x h
  induction h with
  | num cs h1 h2 =>
    intro out ops
    exact ⟨true, by rw [postTokens]; exact syRun_digits cs h1 h2 out ops⟩
  | @paren cs x hE ihE =>
    intro out ops
    obtain ⟨A, B, wn, hAB, hB, hrun⟩ := ihE out ('(' :: ops) rfl
    refine ⟨false, ?_⟩
    rw [List.cons_append, syRun_cons, syChar_lparen, except_bind_ok, syRun_append, hrun,
      except_bind_ok, syRun_cons]
    have hB' : ∀ c ∈ B, c ∈ opChars := fun c hc => by
      rcases hB c hc with rfl | rfl | rfl | rfl <;> simp [opChars]
    rw [syChar_rparen_ok (popToParen_through B ops hB'), except_bind_ok, syRun_nil, hAB]
    simp [List.append_assoc]
  | @ft cs x h ih =>
    intro out ops _
    obtain ⟨wn, hrun⟩ := ih out ops
    exact ⟨postTokens x, [], wn, by simp, by simp, by simpa using hrun⟩
  | te h ih =>
    intro out ops hops
    obtain ⟨A, B, wn, h1, h2, h3⟩ := ih out ops (tBlockStk_of_eBlockStk hops)
    refine ⟨A, B, wn, h1, ?_, h3⟩
    intro c hc
    rcases h2 c hc with rfl | rfl
    · exact Or.inr (Or.inr (Or.inl rfl))
    · exact Or.inr (Or.inr (Or.inr rfl))
  | @mulT cs ds a b ha hb iha ihb =>
    intro out ops hops
    obtain ⟨A₁, B₁, wn₁, hAB₁, hB₁, hrun₁⟩ := iha out ops hops
    obtain ⟨wn₂, hrun₂⟩ := ihb (out ++ A₁ ++ B₁.map Char.toString) ('*' :: ops)
    refine ⟨A₁ ++ B₁.map Char.toString ++ postTokens b, ['*'], wn₂, ?_, ?_, ?_⟩
    · rw [postTokens, hAB₁]
      simp [List.append_assoc, char_toString_mul]
    · intro c hc
      rcases List.mem_singleton.mp hc with rfl
      exact Or.inl rfl
    · rw [syRun_append, hrun₁, except_bind_ok, syRun_cons,
        syChar_op _ (Or.inr (Or.inr (Or.inl rfl)))]
      have hpw : popWhile (prec '*') (B₁ ++ ops) = (ops, B₁.map Char.toString) := by
        have h1 : prec '*' = 1 := rfl
        rw [h1]
        refine popWhile_stack 1 B₁ ops ?_ (stackBlocks_one hops)
        intro c hc
        rcases hB₁ c hc with rfl | rfl
        · exact ⟨by simp [opChars], by decide⟩
        · exact ⟨by simp [opChars], by decide⟩
      show (Except.ok (SYSt.mk ((out ++ A₁) ++ (popWhile (prec '*') (B₁ ++ ops)).2)
          ('*' :: (popWhile (prec '*') (B₁ ++ ops)).1) false)).bind
          (fun st' => syRun ds st') = _
      rw [hpw, except_bind_ok]
      show syRun ds ⟨out ++ A₁ ++ B₁.map Char.toString, '*' :: ops, false⟩ = _
      rw [hrun₂]
      simp [List.append_assoc]
  | @divT cs ds a b ha hb iha ihb =>
    intro out ops hops
    obtain ⟨A₁, B₁, wn₁, hAB₁, hB₁, hrun₁⟩ := iha out ops hops
    obtain ⟨wn₂, hrun₂⟩ := ihb (out ++ A₁ ++ B₁.map Char.toString) ('/' :: ops)
    refine ⟨A₁ ++ B₁.map Char.toString ++ postTokens b, ['/'], wn₂, ?_, ?_, ?_⟩
    · rw [postTokens, hAB₁]
      simp [List.append_assoc, char_toString_div]
    · intro c hc
      rcases List.mem_singleton.mp hc with rfl
      exact Or.inr rfl
    · rw [syRun_append, hrun₁, except_bind_ok, syRun_cons,
        syChar_op _ (Or.inr (Or.inr (Or.inr rfl)))]
      have hpw : popWhile (prec '/') (B₁ ++ ops) = (ops, B₁.map Char.toString) := by
        have h1 : prec '/' = 1 := rfl
        rw [h1]
        refine popWhile_stack 1 B₁ ops ?_ (stackBlocks_one hops)
        intro c hc
        rcases hB₁ c hc with rfl | rfl
        · exact ⟨by simp [opChars], by decide⟩
        · exact ⟨by simp [opChars], by decide⟩
      show (Except.ok (SYSt.mk ((out ++ A₁) ++ (popWhile (prec '/') (B₁ ++ ops)).2)
          ('/' :: (popWhile (prec '/') (B₁ ++ ops)).1) false)).bind
          (fun st' => syRun ds st') = _
      rw [hpw, except_bind_ok]
      show syRun ds ⟨out ++ A₁ ++ B₁.map Char.toString, '/' :: ops, false⟩ = _
      rw [hrun₂]
      simp [List.append_assoc]
  | @addE cs ds a b ha hb iha ihb =>
    intro out ops hops
    obtain ⟨A₁, B₁, wn₁, hAB₁, hB₁, hrun₁⟩ := iha out ops hops
    obtain ⟨A₂, B₂, wn₂, hAB₂, hB₂, hrun₂⟩ :=
      ihb (out ++ A₁ ++ B₁.map Char.toString) ('+' :: ops) (Or.inr (Or.inl rfl))
    refine ⟨A₁ ++ B₁.map Char.toString ++ A₂, B₂ ++ ['+'], wn₂, ?_, ?_, ?_⟩
    · rw [postTokens, hAB₁, hAB₂]
      simp [List.append_assoc, char_toString_plus]
    · intro c hc
      rcases List.mem_append.mp hc with hc | hc
      · rcases hB₂ c hc with rfl | rfl
        · exact Or.inr (Or.inr (Or.inl rfl))
        · exact Or.inr (Or.inr (Or.inr rfl))
      · rcases List.mem_singleton.mp hc with rfl
        exact Or.inl rfl
    · rw [syRun_append, hrun₁, except_bind_ok, syRun_cons, syChar_op _ (Or.inl rfl)]
      have hpw : popWhile (prec '+') (B₁ ++ ops) = (ops, B₁.map Char.toString) := by
        have h1 : prec '+' = 2 := rfl
        rw [h1]
        refine popWhile_stack 2 B₁ ops ?_ (stackBlocks_two hops)
        intro c hc
        rcases hB₁ c hc with rfl | rfl | rfl | rfl <;> exact ⟨by simp [opChars], by decide⟩
      show (Except.ok (SYSt.mk ((out ++ A₁) ++ (popWhile (prec '+') (B₁ ++ ops)).2)
          ('+' :: (popWhile (prec '+') (B₁ ++ ops)).1) false)).bind
          (fun st' => syRun ds st') = _
      rw [hpw, except_bind_ok]
      show syRun ds ⟨out ++ A₁ ++ B₁.map Char.toString, '+' :: ops, false⟩ = _
      rw [hrun₂]
      simp [List.append_assoc]
  | @subE cs ds a b ha hb iha ihb =>
    intro out ops hops
    obtain ⟨A₁, B₁, wn₁, hAB₁, hB₁, hrun₁⟩ := iha out ops hops
    obtain ⟨A₂, B₂, wn₂, hAB₂, hB₂, hrun₂⟩ :=
      ihb (out ++ A₁ ++ B₁.map Char.toString) ('-' :: ops) (Or.inr (Or.inr rfl))
    refine ⟨A₁ ++ B₁.map Char.toString ++ A₂, B₂ ++ ['-'], wn₂, ?_, ?_, ?_⟩
    · rw [postTokens, hAB₁, hAB₂]
      simp [List.append_assoc, char_toString_minus]
    · intro c hc
      rcases List.mem_append.mp hc with hc | hc
      · rcases hB₂ c hc with rfl | rfl
        · exact Or.inr (Or.inr (Or.inl rfl))
        · exact Or.inr (Or.inr (Or.inr rfl))
      · rcases List.mem_singleton.mp hc with rfl
        exact Or.inr (Or.inl rfl)
    · rw [syRun_append, hrun₁, except_bind_ok, syRun_cons, syChar_op _ (Or.inr (Or.inl rfl))]
      have hpw : popWhile (prec '-') (B₁ ++ ops) = (ops, B₁.map Char.toString) := by
        have h1 : prec '-' = 2 := rfl
        rw [h1]
        refine popWhile_stack 2 B₁ ops ?_ (stackBlocks_two hops)
        intro c hc
        rcases hB₁ c hc with rfl | rfl | rfl | rfl <;> exact ⟨by simp [opChars], by decide⟩
      show (Except.ok (SYSt.mk ((out ++ A₁) ++ (popWhile (prec '-') (B₁ ++ ops)).2)
          ('-' :: (popWhile (prec '-') (B₁ ++ ops)).1) false)).bind
          (fun st' => syRun ds st') = _
      rw [hpw, except_bind_ok]
      show syRun ds ⟨out ++ A₁ ++ B₁.map Char.toString, '-' :: ops, false⟩ = _
      rw [hrun₂]
      simp [List.append_assoc]
  | @sp lvl cs ds x h ih =>
    cases lvl with
    | f =>
      intro out ops
      obtain ⟨wn, hrun⟩ := ih out ops
      exact ⟨wn, by rw [syRun_space]; exact hrun⟩
    | t =>
      intro out ops hops
      obtain ⟨A, B, wn, h1, h2, h3⟩ := ih out ops hops
      exact ⟨A, B, wn, h1, h2, by rw [syRun_space]; exact h3⟩
    | e =>
      intro out ops hops
      obtain ⟨A, B, wn, h1, h2, h3⟩ := ih out ops hops
      exact ⟨A, B, wn, h1, h2, by rw [syRun_space]; exact h3⟩

theorem diff_perm_nil {l nums : List ℤ} (h : l.Perm nums) : nums.diff l = [] := by
  have h1 : (↑nums : Multiset ℤ) = (↑l : Multiset ℤ) := Multiset.coe_eq_coe.mpr h.symm
  have h2 : (↑(nums.diff l) : Multiset ℤ) = (↑nums : Multiset ℤ) - (↑l : Multiset ℤ) :=
    (Multiset.coe_sub _ _).symm
  rw [h1, tsub_self] at h2
  exact (Multiset.coe_eq_zero _).mp h2

theorem evalStep_singleton_finish (w : PyVal) (nums : List ℤ) :
    evalStep [w] 1 nums = .finish [w] nums := by
  unfold evalStep
  rw [if_neg]
  simp

theorem check_expression_sy_ok {nums : List ℤ} {s : String} {out : List String}
    {ops : List Char} {wn : Bool}
    (h : syRun s.data { out := [], ops := [], wasNum := false } = .ok ⟨out, ops, wn⟩) :
    check_expression nums s = evalPhase ((out ++ ops.map Char.toString).map PyVal.vStr) nums := by
  rw [check_expression, h]

theorem evalPhase_done {q : List PyVal} {nums : List ℤ} {q' : List PyVal} {nums' : List ℤ}
    (h : evalLoop q 0 nums = .ok (.done q' nums')) :
    evalPhase q nums = finalCheck q' nums' := by
  rw [evalPhase, h]

theorem finalCheck_num {w : PyVal} {x : ℚ} (h : toQ w = some x) :
    finalCheck [w] [] = .ok ((if 23.9 ≤ x ∧ x ≤ 24.1 then (true, "Correct!")
      else (false, "Result not 24")), []) := by
  have hiff : (qle tol239 x ∧ qle x tol241) ↔ (23.9 ≤ x ∧ x ≤ 24.1) := by
    rw [qle_iff, qle_iff, tol239_eq, tol241_eq]
  simp only [finalCheck, List.length_nil, Nat.lt_irrefl, h]
  rw [if_neg not_false, if_congr hiff rfl rfl]
  split <;> rfl

/-- Master correctness lemma for the validator: on a well-formed expression
string that uses the cards exactly once and divides by zero nowhere,
`check_expression` parses and evaluates to the exact rational value, empties
the card list, and answers by the `[23.9, 24.1]` tolerance test. -/
theorem check_correct (nums : List ℤ) (cs : List Char) (e : Exp)
    (hwf : Wf .e cs e) (hperm : (leaves e).Perm nums) (hdz : noDivZero e = true) :
    check_expression nums (String.mk cs) =
      .ok ((if 23.9 ≤ evalQ e ∧ evalQ e ≤ 24.1 then (true, "Correct!")
        else (false, "Result not 24")), []) := by
  obtain ⟨A, B, wn, hAB, hB, hrun⟩ := syRun_wf hwf [] [] trivial
  simp only [List.nil_append, List.append_nil] at hrun
  obtain ⟨w, hw, heval⟩ := evalLoop_expr e [] [] nums (wf_expWf hwf) hdz hperm.subperm
  simp only [List.nil_append, List.append_nil, List.length_nil, Nat.cast_zero] at heval
  rw [check_expression_sy_ok hrun]
  rw [show A ++ B.map Char.toString = postTokens e from hAB.symm]
  have hdone : evalLoop ((postTokens e).map PyVal.vStr) 0 nums = .ok (.done [w] []) := by
    rw [heval, diff_perm_nil hperm]
    exact evalLoop_finish (evalStep_singleton_finish w [])
  rw [evalPhase_done hdone, finalCheck_num hw]

/-- Correctness of the checker under the idealized exact-rational numeric
model: for every 4-integer card collection and every well-formed expression
built only from those cards, each used once, with no division by zero, the
exact-model `check_expression` returns ok=true iff the exact evaluation lies
in [23.9, 24.1].  The real program rounds every float operation to binary64,
which breaks this biconditional at cancellation inputs — see
`c1_float_rounding_diverges` below. -/
theorem check_exact_correct (nums : List ℤ) (cs : List Char) (e : Exp)
    (hlen : nums.length = 4) (hwf : Wf .e cs e)
    (hperm : (leaves e).Perm nums) (hdz : noDivZero e = true) :
    check_expression nums (String.mk cs) =
      .ok ((if 23.9 ≤ evalQ e ∧ evalQ e ≤ 24.1 then (true, "Correct!")
        else (false, "Result not 24")), []) :=
  check_correct nums cs e hwf hperm hdz

/-- Instance of `check_exact_correct` at the spec's example:
`check_expression([1,3,4,6], "(6/(1-3/4))") = (True, "Correct!")` (this one
is exact in binary64 as well: every intermediate value is dyadic). -/
theorem check_exact_correct_witness :
    check_expression [1, 3, 4, 6] "(6/(1-3/4))" = .ok ((true, "Correct!"), []) := by
  have d1 : Wf .f ['1'] (.num ['1']) := Wf.num _ (by decide) (by decide)
  have d3 : Wf .f ['3'] (.num ['3']) := Wf.num _ (by decide) (by decide)
  have d4 : Wf .f ['4'] (.num ['4']) := Wf.num _ (by decide) (by decide)
  have d6 : Wf .f ['6'] (.num ['6']) := Wf.num _ (by decide) (by decide)
  have t3 : Wf .t ['3', '/', '4'] (.div (.num ['3']) (.num ['4'])) :=
    Wf.divT (Wf.ft d3) d4
  have e5 : Wf .e ['1', '-', '3', '/', '4']
      (.sub (.num ['1']) (.div (.num ['3']) (.num ['4']))) :=
    Wf.subE (Wf.te (Wf.ft d1)) t3
  have f7 : Wf .f ['(', '1', '-', '3', '/', '4', ')']
      (.sub (.num ['1']) (.div (.num ['3']) (.num ['4']))) := Wf.paren e5
  have t9 : Wf .t ['6', '/', '(', '1', '-', '3', '/', '4', ')']
      (.div (.num ['6']) (.sub (.num ['1']) (.div (.num ['3']) (.num ['4'])))) :=
    Wf.divT (Wf.ft d6) f7
  have hwf : Wf .e "(6/(1-3/4))".data
      (.div (.num ['6']) (.sub (.num ['1']) (.div (.num ['3']) (.num ['4'])))) :=
    Wf.te (Wf.ft (Wf.paren (Wf.te t9)))
  have h := check_exact_correct [1, 3, 4, 6] "(6/(1-3/4))".data
    (.div (.num ['6']) (.sub (.num ['1']) (.div (.num ['3']) (.num ['4']))))
    rfl hwf (by decide) (by decide)
  have he : evalQ (.div (.num ['6']) (.sub (.num ['1'])
      (.div (.num ['3']) (.num ['4'])))) = qOfInt 24 := by decide
  rw [he, qOfInt_eq] at h
  rw [if_pos (by norm_num)] at h
  exact h

/-- Claim C3 (code bug): the claim says `check_expression` never lets a fault
escape, but on the empty expression the code raises `IndexError`: the output
queue is empty and `print(output_queue[0])` subscripts it. -/
theorem c3_empty_expression_raises :
    check_expression [1, 3, 4, 6] "" = .error .indexError := by decide

/-- Claim C4 (code bug): the claim says a zero divisor makes the validator
return `(false, m)` with a dedicated message, but the code raises an
uncaught `ZeroDivisionError`: on cards `[6,3,3,1]` and expression
`"6/(3-3)"` the literals all match and the final division divides 6 by 0. -/
theorem c4_div_zero_raises :
    check_expression [6, 3, 3, 1] "6/(3-3)" = .error .zeroDivisionError := by decide

/-- Claim C5 (code bug): the claim says any character outside the allowed
set yields ok=false with a syntax error, but the tokenizer's `if/elif` chain
has no else branch, so a letter is silently skipped: appending `x` to a
valid solution still returns `(True, "Correct!")`. -/
theorem c5_illegal_char_accepted :
    check_result [1, 3, 4, 6] "(6/(1-3/4))x" = .ok (true, "Correct!") := by decide

/-- Claim C6 (code bug): a `)` with no matching `(` does return
`(False, "Brackets mismatched")`, but an unclosed `(` — the spec's own
example `"(6/(1-3/4"` — is drained into the output queue, where
`int("(")` raises an uncaught `ValueError`. -/
theorem c6_unclosed_paren_raises :
    check_expression [1, 3, 4, 6] "(6/(1-3/4" = .error .valueError := by decide

/-- Claim C7 (code bug): the claim says the caller's card list is unchanged
on every return path, but the code removes each matched literal from the
caller's own list via `nums.remove(...)`: after validating the module's own
example `"5 * 4 + 13 - 9"` against `[5,4,13,9]`, the caller's list is empty
(the second component of the result is the caller's list after the call). -/
theorem c7_mutates_caller_list :
    check_expression [5, 4, 13, 9] "5 * 4 + 13 - 9" = .ok ((true, "Correct!"), []) := by
  decide

/-! Solver invariants.  `SolExp m v t` says the text `t` is a solver-built
expression over the literal multiset `m` with exact value `v`; its `div`
constructor demands a nonzero divisor, which is exactly the structural
pruning `gather` performs. -/

inductive SolExp : Multiset ℤ → ℚ → String → Prop where
  | leaf (k : ℤ) : SolExp {k} ((k : ℚ)) (toString k)
  | add {m₁ m₂ : Multiset ℤ} {v₁ v₂ : ℚ} {t₁ t₂ : String} :
      SolExp m₁ v₁ t₁ → SolExp m₂ v₂ t₂ →
      SolExp (m₁ + m₂) (v₁ + v₂) ("(" ++ t₁ ++ " + " ++ t₂ ++ ")")
  | sub {m₁ m₂ : Multiset ℤ} {v₁ v₂ : ℚ} {t₁ t₂ : String} :
      SolExp m₁ v₁ t₁ → SolExp m₂ v₂ t₂ →
      SolExp (m₁ + m₂) (v₁ - v₂) ("(" ++ t₁ ++ " - " ++ t₂ ++ ")")
  | mul {m₁ m₂ : Multiset ℤ} {v₁ v₂ : ℚ} {t₁ t₂ : String} :
      SolExp m₁ v₁ t₁ → SolExp m₂ v₂ t₂ →
      SolExp (m₁ + m₂) (v₁ * v₂) ("(" ++ t₁ ++ " * " ++ t₂ ++ ")")
  | div {m₁ m₂ : Multiset ℤ} {v₁ v₂ : ℚ} {t₁ t₂ : String} :
      SolExp m₁ v₁ t₁ → SolExp m₂ v₂ t₂ → v₂ ≠ 0 →
      SolExp (m₁ + m₂) (v₁ / v₂) ("(" ++ t₁ ++ " / " ++ t₂ ++ ")")

/-- A solver state is good for the card multiset `m` when its `[value, text]`
elements carry solver expressions whose literal multisets partition `m`. -/
def Good (m : Multiset ℤ) (s : List (ℚ × String)) : Prop :=
  ∃ parts : List (Multiset ℤ),
    List.Forall₂ (fun p el => SolExp p el.1 el.2) parts s ∧ parts.sum = m

theorem two_le_count_of_lt {α : Type} [BEq α] [LawfulBEq α] (l : List α) (i j : ℕ)
    (hij : i < j) (hi : i < l.length) (hj : j < l.length) (heq : l[i] = l[j]) :
    2 ≤ l.count l[j] := by
  have h1 : 1 ≤ (l.drop j).count l[j] := by
    rw [List.drop_eq_getElem_cons hj, List.count_cons]
    simp
  have h2 : 1 ≤ (l.take j).count l[j] := by
    have hmem : l[j] ∈ l.take j := by
      rw [← heq]
      exact List.getElem_take' l hi hij ▸ List.getElem_mem _
    have := List.count_pos_iff_mem.mpr hmem
    omega
  calc 2 ≤ (l.take j).count l[j] + (l.drop j).count l[j] := by omega
    _ = l.count l[j] := by rw [← List.count_append, List.take_append_drop]

theorem mem_erase_of_getElem {α : Type} [BEq α] [LawfulBEq α] (l : List α) (i j : ℕ)
    (hi : i < l.length) (hj : j < l.length) (hij : i < j) :
    l[j] ∈ l.erase l[i] := by
  by_cases heq : l[i] = l[j]
  · have h2 := two_le_count_of_lt l i j hij hi hj heq
    have h3 := List.count_erase l[i] l[j] l
    rw [if_pos (by rw [heq]; exact beq_self_eq_true _)] at h3
    have h4 : 1 ≤ (l.erase l[i]).count l[j] := by
      rw [← heq] at h3 ⊢
      rw [← heq] at h2
      omega
    exact List.count_pos_iff_mem.mp (by omega)
  · exact (List.mem_erase_of_ne (fun h => heq h.symm)).mpr (List.getElem_mem _)

theorem forall₂_erase {β α : Type} [BEq α] [LawfulBEq α] {R : β → α → Prop} :
    ∀ {parts : List β} {s : List α}, List.Forall₂ R parts s → ∀ {x : α}, x ∈ s →
    ∃ p parts', parts.Perm (p :: parts') ∧ R p x ∧ List.Forall₂ R parts' (s.erase x) := by
  intro parts s h
  induction h with
  | nil => intro x hx; exact absurd hx (by simp)
  | @cons p₀ y ps ys hR hF ih =>
    intro x hx
    by_cases hyx : y = x
    · subst hyx
      refine ⟨p₀, ps, List.Perm.refl _, hR, ?_⟩
      rw [List.erase_cons_head]
      exact hF
    · have hx' : x ∈ ys := by
        rcases List.mem_cons.mp hx with h | h
        · exact absurd h.symm hyx
        · exact h
      obtain ⟨p, ps', hperm, hRp, hF'⟩ := ih hx'
      refine ⟨p, p₀ :: ps', ?_, hRp, ?_⟩
      · exact (hperm.cons p₀).trans (List.Perm.swap _ _ _)
      · rw [List.erase_cons_tail]
        · exact List.Forall₂.cons hR hF'
        · simpa using hyx

theorem combineVals_solExp {p₁ p₂ : Multiset ℤ} {c1 c2 : ℚ × String}
    (h1 : SolExp p₁ c1.1 c1.2) (h2 : SolExp p₂ c2.1 c2.2)
    {c : ℚ × String} (hc : c ∈ combineVals c1 c2) : SolExp (p₁ + p₂) c.1 c.2 := by
  rw [combineVals] at hc
  rcases List.mem_append.mp hc with hc | hc
  · rcases List.mem_append.mp hc with hc | hc
    · simp only [List.mem_cons, List.not_mem_nil, or_false] at hc
      rcases hc with rfl | rfl | rfl | rfl
      · show SolExp (p₁ + p₂) (qAdd c1.1 c2.1) _
        rw [qAdd_eq]
        exact SolExp.add h1 h2
      · show SolExp (p₁ + p₂) (qSub c1.1 c2.1) _
        rw [qSub_eq]
        exact SolExp.sub h1 h2
      · show SolExp (p₁ + p₂) (qSub c2.1 c1.1) _
        rw [qSub_eq, add_comm]
        exact SolExp.sub h2 h1
      · show SolExp (p₁ + p₂) (qMul c1.1 c2.1) _
        rw [qMul_eq]
        exact SolExp.mul h1 h2
    · by_cases hnz : c2.1.num = 0
      · rw [if_neg (by simpa using hnz)] at hc
        exact absurd hc (by simp)
      · rw [if_pos hnz] at hc
        rcases List.mem_singleton.mp hc with rfl
        show SolExp (p₁ + p₂) (qDiv c1.1 c2.1) _
        rw [qDiv_eq]
        exact SolExp.div h1 h2 (Rat.num_ne_zero.mp hnz)
  · by_cases hnz : c1.1.num = 0
    · rw [if_neg (by simpa using hnz)] at hc
      exact absurd hc (by simp)
    · rw [if_pos hnz] at hc
      rcases List.mem_singleton.mp hc with rfl
      show SolExp (p₁ + p₂) (qDiv c2.1 c1.1) _
      rw [qDiv_eq, add_comm]
      exact SolExp.div h2 h1 (Rat.num_ne_zero.mp hnz)

theorem gather_good {m : Multiset ℤ} {s : List (ℚ × String)} (hg : Good m s)
    {t : List (ℚ × String)} (ht : t ∈ gather s) : Good m t := by
  obtain ⟨parts, hF, hsum⟩ := hg
  simp only [gather, List.mem_flatMap, List.mem_map, List.mem_range, List.mem_range'] at ht
  obtain ⟨i, hi, j, ⟨k, hk, rfl⟩, c, hc, rfl⟩ := ht
  have hj : i + 1 + 1 * k < s.length := by omega
  have hij : i < i + 1 + 1 * k := by omega
  have hgd1 : s.getD i (0, "") = s[i] := List.getD_eq_getElem s (0, "") hi
  have hgd2 : s.getD (i + 1 + 1 * k) (0, "") = s[i + 1 + 1 * k] :=
    List.getD_eq_getElem s (0, "") hj
  rw [hgd1, hgd2]
  rw [hgd1, hgd2] at hc
  obtain ⟨p₁, parts₁, hperm₁, hR₁, hF₁⟩ := forall₂_erase hF (List.getElem_mem hi)
  obtain ⟨p₂, parts₂, hperm₂, hR₂, hF₂⟩ :=
    forall₂_erase hF₁ (mem_erase_of_getElem s i (i + 1 + 1 * k) hi hj hij)
  refine ⟨(p₁ + p₂) :: parts₂, List.Forall₂.cons (combineVals_solExp hR₁ hR₂ hc) hF₂, ?_⟩
  have e1 : parts.sum = p₁ + parts₁.sum := by rw [hperm₁.sum_eq, List.sum_cons]
  have e2 : parts₁.sum = p₂ + parts₂.sum := by rw [hperm₂.sum_eq, List.sum_cons]
  rw [List.sum_cons, ← hsum, e1, e2, add_assoc]

theorem good_singleton {m : Multiset ℤ} {s : List (ℚ × String)} (hg : Good m s)
    (hl : s.length = 1) : ∃ el, s = [el] ∧ SolExp m el.1 el.2 := by
  obtain ⟨el, rfl⟩ := List.length_eq_one.mp hl
  obtain ⟨parts, hF, hsum⟩ := hg
  have hlp : parts.length = 1 := by
    have := hF.length_eq
    simpa using this
  obtain ⟨p, rfl⟩ := List.length_eq_one.mp hlp
  rcases hF with _ | ⟨hR, hnil⟩
  refine ⟨el, rfl, ?_⟩
  rw [List.sum_cons, List.sum_nil, add_zero] at hsum
  rw [← hsum]
  exact hR

theorem solveLoopAux_sound {m : Multiset ℤ} :
    ∀ (fuel : ℕ) (st : List (List (ℚ × String))), (∀ s ∈ st, Good m s) →
    ∀ e, solveLoopAux fuel st = some (some e) →
    ∃ v : ℚ, SolExp m v e ∧ tolSolLo ≤ v ∧ v ≤ tolSolHi := by
  intro fuel
  induction fuel with
  | zero => intro st _ e heq; exact absurd heq (by simp [solveLoopAux])
  | succ fuel ih =>
    intro st hG e heq
    rcases hstep : solveStep st with s₀ | st' | _
    · simp only [solveLoopAux, hstep] at heq
      have he : s₀ = e := by simpa using heq
      subst he
      cases st with
      | nil => exact absurd hstep (by simp [solveStep])
      | cons s rest =>
        simp only [solveStep] at hstep
        split at hstep
        · split at hstep
          · rename_i hl htol
            obtain ⟨el, rfl, hS⟩ := good_singleton (hG s (List.mem_cons_self _ _)) hl
            have hhd : List.headD [el] ((0 : ℚ), "") = el := rfl
            rw [hhd] at hstep htol
            have he2 : el.2 = s₀ := by
              injection hstep
            refine ⟨el.1, ?_, (qle_iff _ _).mp htol.1, (qle_iff _ _).mp htol.2⟩
            rw [← he2]
            exact hS
          · exact absurd hstep (by simp)
        · exact absurd hstep (by simp)
    · simp only [solveLoopAux, hstep] at heq
      refine ih st' ?_ e heq
      cases st with
      | nil => exact absurd hstep (by simp [solveStep])
      | cons s rest =>
        simp only [solveStep] at hstep
        split at hstep
        · split at hstep
          · exact absurd hstep (by simp)
          · have hrest : rest = st' := by injection hstep
            intro t ht
            exact hG t (hrest ▸ List.mem_cons_of_mem _ ht)
        · have hnext : (gather s).reverse ++ rest = st' := by injection hstep
          intro t ht
          rw [← hnext] at ht
          rcases List.mem_append.mp ht with h | h
          · exact gather_good (hG s (List.mem_cons_self _ _)) (List.mem_reverse.mp h)
          · exact hG t (List.mem_cons_of_mem _ h)
    · simp only [solveLoopAux, hstep] at heq
      exact absurd heq (by simp)

theorem good_init (nums : List ℤ) :
    Good (↑nums : Multiset ℤ) (nums.map fun i => (qOfInt i, toString i)) := by
  refine ⟨nums.map fun k => ({k} : Multiset ℤ), ?_, ?_⟩
  · induction nums with
    | nil => exact List.Forall₂.nil
    | cons k ks ihk =>
      refine List.Forall₂.cons ?_ ihk
      show SolExp {k} (qOfInt k) (toString k)
      rw [qOfInt_eq]
      exact SolExp.leaf k
  · induction nums with
    | nil => rfl
    | cons k ks ihk =>
      simp only [List.map_cons, List.sum_cons, ihk, Multiset.cons_coe,
        Multiset.singleton_add]

theorem solve24_sound {nums : List ℤ} {e : String} (h : solve24 nums = some e) :
    ∃ v : ℚ, SolExp (↑nums : Multiset ℤ) v e ∧ tolSolLo ≤ v ∧ v ≤ tolSolHi := by
  rw [solve24] at h
  set start := (gather (nums.map fun i => (qOfInt i, toString i))).reverse with hstart
  have hG : ∀ s ∈ start, Good (↑nums : Multiset ℤ) s := by
    intro s hs
    exact gather_good (good_init nums) (List.mem_reverse.mp hs)
  rcases hrun : solveLoopAux (solveMeasure start + 1) start with _ | r
  · rw [hrun] at h
    exact absurd h (by simp)
  · rw [hrun] at h
    simp only at h
    subst h
    exact solveLoopAux_sound _ start hG e hrun

/-! Decimal representation: `toString` on ℤ produces the digit strings the
checker re-parses, and never a parenthesis. -/

def natDigits (n : ℕ) : List Char :=
  if h : n < 10 then [Nat.digitChar n]
  else natDigits (n / 10) ++ [Nat.digitChar (n % 10)]
decreasing_by exact Nat.div_lt_self (by omega) (by omega)

theorem digitChar_isDigit : ∀ m, m < 10 → (Nat.digitChar m).isDigit = true := by decide

theorem digitVal_digitChar : ∀ m, m < 10 → digitVal (Nat.digitChar m) = m := by decide

theorem natDigits_spec : ∀ n, natDigits n ≠ [] ∧ (natDigits n).all Char.isDigit = true ∧
    digitsVal (natDigits n) = n := by
  intro n
  induction n using Nat.strong_induction_on with
  | _ n ih =>
    by_cases h : n < 10
    · rw [natDigits, dif_pos h]
      refine ⟨by simp, ?_, ?_⟩
      · simp [digitChar_isDigit n h]
      · show 10 * 0 + digitVal (Nat.digitChar n) = n
        rw [digitVal_digitChar n h]
        omega
    · rw [natDigits, dif_neg h]
      obtain ⟨ih1, ih2, ih3⟩ := ih (n / 10) (Nat.div_lt_self (by omega) (by omega))
      have hm : n % 10 < 10 := Nat.mod_lt _ (by omega)
      refine ⟨by simp, ?_, ?_⟩
      · rw [List.all_append, ih2]
        simp [digitChar_isDigit _ hm]
      · rw [digitsVal, List.foldl_append]
        show 10 * digitsVal (natDigits (n / 10)) + digitVal (Nat.digitChar (n % 10)) = n
        rw [ih3, digitVal_digitChar _ hm]
        omega

theorem toDigitsCore_succ (fuel n : ℕ) (ds : List Char) :
    Nat.toDigitsCore 10 (fuel + 1) n ds =
      if n / 10 = 0 then (n % 10).digitChar :: ds
      else Nat.toDigitsCore 10 fuel (n / 10) ((n % 10).digitChar :: ds) := rfl

theorem toDigitsCore_eq : ∀ (fuel n : ℕ) (ds : List Char), n < 10 ^ (fuel + 1) →
    Nat.toDigitsCore 10 (fuel + 1) n ds = natDigits n ++ ds := by
  intro fuel
  induction fuel with
  | zero =>
    intro n ds h
    have hn : n < 10 := by simpa using h
    have h0 : n / 10 = 0 := Nat.div_eq_of_lt hn
    rw [toDigitsCore_succ, if_pos h0, natDigits, dif_pos hn, Nat.mod_eq_of_lt hn]
    rfl
  | succ fuel ih =>
    intro n ds h
    rw [toDigitsCore_succ]
    by_cases h0 : n / 10 = 0
    · have hn : n < 10 := by omega
      rw [if_pos h0, natDigits, dif_pos hn, Nat.mod_eq_of_lt hn]
      rfl
    · rw [if_neg h0]
      have hlt : n / 10 < 10 ^ (fuel + 1) := by
        rw [pow_succ] at h
        omega
      rw [ih (n / 10) _ hlt]
      conv_rhs => rw [natDigits]
      rw [dif_neg (by omega : ¬ n < 10), List.append_assoc]
      rfl

theorem natRepr_data (n : ℕ) : (Nat.repr n).data = natDigits n := by
  have hb : n < 10 ^ (n + 1) := by
    calc n < 10 ^ n := Nat.lt_pow_self (by omega) n
    _ ≤ 10 ^ (n + 1) := Nat.pow_le_pow_right (by omega) (by omega)
  rw [Nat.repr, Nat.toDigits, toDigitsCore_eq n n [] hb, List.append_nil]
  rfl

theorem intToString_ofNat (n : ℕ) : toString (Int.ofNat n) = Nat.repr n := rfl

theorem intToString_negSucc (n : ℕ) :
    toString (Int.negSucc n) = "-" ++ Nat.repr (n + 1) := rfl

theorem intToString_digits {k : ℤ} (hk : 0 ≤ k) :
    (toString k).data ≠ [] ∧ (toString k).data.all Char.isDigit = true ∧
    ((digitsVal (toString k).data : ℤ)) = k := by
  obtain ⟨n, rfl⟩ := Int.eq_ofNat_of_zero_le hk
  have hofnat : ((n : ℤ)) = Int.ofNat n := rfl
  rw [hofnat, intToString_ofNat, natRepr_data]
  obtain ⟨h1, h2, h3⟩ := natDigits_spec n
  exact ⟨h1, h2, by rw [h3]; rfl⟩

theorem intToString_chars (k : ℤ) : ∀ c ∈ (toString k).data, c.isDigit = true ∨ c = '-' := by
  cases k with
  | ofNat n =>
    rw [intToString_ofNat, natRepr_data]
    intro c hc
    exact Or.inl (List.all_eq_true.mp (natDigits_spec n).2.1 c hc)
  | negSucc n =>
    rw [intToString_negSucc] at *
    intro c hc
    rw [String.data_append, natRepr_data] at hc
    rcases List.mem_append.mp hc with h | h
    · right
      simpa using h
    · exact Or.inl (List.all_eq_true.mp (natDigits_spec (n + 1)).2.1 c h)

/-! Parenthesis balance.  `scanBal cs d` threads the open-paren depth through
the characters, failing if a close-paren arrives at depth 0; a string is
balanced when the scan of its characters from depth 0 ends at depth 0. -/

def scanBal : List Char → ℕ → Option ℕ
  | [], d => some d
  | c :: cs, d =>
    if c = '(' then scanBal cs (d + 1)
    else if c = ')' then
      match d with
      | 0 => none
      | e + 1 => scanBal cs e
    else scanBal cs d

theorem scanBal_append : ∀ (xs ys : List Char) (d : ℕ),
    scanBal (xs ++ ys) d = (scanBal xs d).bind (fun e => scanBal ys e) := by
  intro xs
  induction xs with
  | nil => intro ys d; rfl
  | cons c cs ih =>
    intro ys d
    by_cases h1 : c = '('
    · simp only [List.cons_append, scanBal, if_pos h1]
      exact ih ys (d + 1)
    · by_cases h2 : c = ')'
      · cases d with
        | zero =>
          simp only [List.cons_append, scanBal, if_neg h1, if_pos h2]
          rfl
        | succ e =>
          simp only [List.cons_append, scanBal, if_neg h1, if_pos h2]
          exact ih ys e
      · simp only [List.cons_append, scanBal, if_neg h1, if_neg h2]
        exact ih ys d

theorem scanBal_no_paren : ∀ (xs : List Char) (d : ℕ),
    (∀ c ∈ xs, c ≠ '(' ∧ c ≠ ')') → scanBal xs d = some d := by
  intro xs
  induction xs with
  | nil => intro d _; rfl
  | cons c cs ih =>
    intro d h
    obtain ⟨h1, h2⟩ := h c (List.mem_cons_self _ _)
    simp only [scanBal, if_neg h1, if_neg h2]
    exact ih d (fun x hx => h x (List.mem_cons_of_mem _ hx))

theorem intToString_no_paren (k : ℤ) : ∀ c ∈ (toString k).data, c ≠ '(' ∧ c ≠ ')' := by
  intro c hc
  rcases intToString_chars k c hc with h | h
  · constructor <;> intro he <;> rw [he] at h <;> exact absurd h (by decide)
  · rw [h]
    exact ⟨by decide, by decide⟩

theorem scanBal_node {t1 t2 : String} (op : Char)
    (hop : op ≠ '(' ∧ op ≠ ')')
    (ih1 : ∀ d, scanBal t1.data d = some d) (ih2 : ∀ d, scanBal t2.data d = some d) :
    ∀ d, scanBal ("(" ++ t1 ++ (String.mk [' ', op, ' ']) ++ t2 ++ ")").data d = some d := by
  intro d
  have hmid : ∀ e, scanBal [' ', op, ' '] e = some e := by
    intro e
    refine scanBal_no_paren _ e ?_
    intro c hc
    rcases List.mem_cons.mp hc with rfl | hc
    · exact ⟨by decide, by decide⟩
    rcases List.mem_cons.mp hc with rfl | hc
    · exact hop
    rcases List.mem_cons.mp hc with rfl | hc
    · exact ⟨by decide, by decide⟩
    · exact absurd hc (by simp)
  rw [String.data_append, String.data_append, String.data_append, String.data_append]
  rw [scanBal_append, scanBal_append, scanBal_append, scanBal_append]
  have h0 : scanBal "(".data d = some (d + 1) := by
    show scanBal ['('] d = some (d + 1)
    simp [scanBal]
  rw [h0]
  simp only [Option.some_bind]
  rw [ih1 (d + 1)]
  simp only [Option.some_bind]
  rw [hmid (d + 1)]
  simp only [Option.some_bind]
  rw [ih2 (d + 1)]
  simp only [Option.some_bind]
  show scanBal [')'] (d + 1) = some d
  simp [scanBal]

theorem solExp_scanBal {m : Multiset ℤ} {v : ℚ} {t : String} (hS : SolExp m v t) :
    ∀ d, scanBal t.data d = some d := by
  induction hS with
  | leaf k => exact fun d => scanBal_no_paren _ d (intToString_no_paren k)
  | add h1 h2 ih1 ih2 => exact scanBal_node '+' (by decide) ih1 ih2
  | sub h1 h2 ih1 ih2 => exact scanBal_node '-' (by decide) ih1 ih2
  | mul h1 h2 ih1 ih2 => exact scanBal_node '*' (by decide) ih1 ih2
  | div h1 h2 _ ih1 ih2 => exact scanBal_node '/' (by decide) ih1 ih2

/-! Every solver-built string parses in the expression grammar (at factor
level: solver strings are single literals or fully parenthesized), provided
its literals are nonnegative so that `toString` emits plain digit runs. -/

theorem wf_node_string {t1 t2 : String} {op : Char} {x : Exp}
    (h : Wf .e (t1.data ++ op :: t2.data) x) :
    Wf .f ("(" ++ t1 ++ (String.mk [' ', op, ' ']) ++ t2 ++ ")").data x := by
  have s1 : Wf .e (t1.data ++ ' ' :: op :: t2.data) x := Wf.sp h
  have s1' : Wf .e ((t1.data ++ [' ', op]) ++ t2.data) x := by
    have hassoc : (t1.data ++ [' ', op]) ++ t2.data = t1.data ++ ' ' :: op :: t2.data := by
      simp
    rw [hassoc]
    exact s1
  have s2' : Wf .e (t1.data ++ ' ' :: op :: ' ' :: t2.data) x := by
    have hassoc : (t1.data ++ [' ', op]) ++ ' ' :: t2.data
        = t1.data ++ ' ' :: op :: ' ' :: t2.data := by simp
    rw [← hassoc]
    exact Wf.sp s1'
  have hdata : ("(" ++ t1 ++ (String.mk [' ', op, ' ']) ++ t2 ++ ")").data
      = '(' :: (t1.data ++ ' ' :: op :: ' ' :: t2.data) ++ [')'] := by
    simp only [String.data_append]
    show ['('] ++ t1.data ++ [' ', op, ' '] ++ t2.data ++ [')'] = _
    simp
  rw [hdata]
  exact Wf.paren s2'

theorem solExp_toWf : ∀ {m : Multiset ℤ} {v : ℚ} {t : String}, SolExp m v t →
    (∀ k ∈ m, 0 ≤ k) →
    ∃ e : Exp, Wf .f t.data e ∧ evalQ e = v ∧
      ((leaves e : List ℤ) : Multiset ℤ) = m ∧ noDivZero e = true := by
  intro m v t hS
  induction hS with
  | leaf k =>
    intro hpos
    have hk : 0 ≤ k := hpos k (by simp)
    obtain ⟨h1, h2, h3⟩ := intToString_digits hk
    refine ⟨.num (toString k).data, Wf.num _ h1 h2, ?_, ?_, rfl⟩
    · rw [evalQ_num]
      exact_mod_cast h3
    · show (([((digitsVal (toString k).data : ℤ))] : List ℤ) : Multiset ℤ) = {k}
      rw [h3, Multiset.coe_singleton]
  | @add m1 m2 v1 v2 t1 t2 h1 h2 ih1 ih2 =>
    intro hpos
    obtain ⟨e1, hw1, hv1, hl1, hz1⟩ :=
      ih1 (fun k hk => hpos k (Multiset.mem_add.mpr (Or.inl hk)))
    obtain ⟨e2, hw2, hv2, hl2, hz2⟩ :=
      ih2 (fun k hk => hpos k (Multiset.mem_add.mpr (Or.inr hk)))
    refine ⟨.add e1 e2, ?_, ?_, ?_, ?_⟩
    · exact wf_node_string (Wf.addE (Wf.te (Wf.ft hw1)) (Wf.ft hw2))
    · rw [evalQ_add, hv1, hv2]
    · show ((leaves e1 ++ leaves e2 : List ℤ) : Multiset ℤ) = m1 + m2
      rw [← Multiset.coe_add, hl1, hl2]
    · show (noDivZero e1 && noDivZero e2) = true
      rw [hz1, hz2]
      rfl
  | @sub m1 m2 v1 v2 t1 t2 h1 h2 ih1 ih2 =>
    intro hpos
    obtain ⟨e1, hw1, hv1, hl1, hz1⟩ :=
      ih1 (fun k hk => hpos k (Multiset.mem_add.mpr (Or.inl hk)))
    obtain ⟨e2, hw2, hv2, hl2, hz2⟩ :=
      ih2 (fun k hk => hpos k (Multiset.mem_add.mpr (Or.inr hk)))
    refine ⟨.sub e1 e2, ?_, ?_, ?_, ?_⟩
    · exact wf_node_string (Wf.subE (Wf.te (Wf.ft hw1)) (Wf.ft hw2))
    · rw [evalQ_sub, hv1, hv2]
    · show ((leaves e1 ++ leaves e2 : List ℤ) : Multiset ℤ) = m1 + m2
      rw [← Multiset.coe_add, hl1, hl2]
    · show (noDivZero e1 && noDivZero e2) = true
      rw [hz1, hz2]
      rfl
  | @mul m1 m2 v1 v2 t1 t2 h1 h2 ih1 ih2 =>
    intro hpos
    obtain ⟨e1, hw1, hv1, hl1, hz1⟩ :=
      ih1 (fun k hk => hpos k (Multiset.mem_add.mpr (Or.inl hk)))
    obtain ⟨e2, hw2, hv2, hl2, hz2⟩ :=
      ih2 (fun k hk => hpos k (Multiset.mem_add.mpr (Or.inr hk)))
    refine ⟨.mul e1 e2, ?_, ?_, ?_, ?_⟩
    · exact wf_node_string (Wf.te (Wf.mulT (Wf.ft hw1) hw2))
    · rw [evalQ_mul, hv1, hv2]
    · show ((leaves e1 ++ leaves e2 : List ℤ) : Multiset ℤ) = m1 + m2
      rw [← Multiset.coe_add, hl1, hl2]
    · show (noDivZero e1 && noDivZero e2) = true
      rw [hz1, hz2]
      rfl
  | @div m1 m2 v1 v2 t1 t2 h1 h2 hnz ih1 ih2 =>
    intro hpos
    obtain ⟨e1, hw1, hv1, hl1, hz1⟩ :=
      ih1 (fun k hk => hpos k (Multiset.mem_add.mpr (Or.inl hk)))
    obtain ⟨e2, hw2, hv2, hl2, hz2⟩ :=
      ih2 (fun k hk => hpos k (Multiset.mem_add.mpr (Or.inr hk)))
    refine ⟨.div e1 e2, ?_, ?_, ?_, ?_⟩
    · exact wf_node_string (Wf.te (Wf.divT (Wf.ft hw1) hw2))
    · rw [evalQ_div, hv1, hv2]
    · show ((leaves e1 ++ leaves e2 : List ℤ) : Multiset ℤ) = m1 + m2
      rw [← Multiset.coe_add, hl1, hl2]
    · show (noDivZero e1 && noDivZero e2 && ((evalQ e2).num != 0)) = true
      rw [hz1, hz2, hv2]
      simp only [Bool.and_true, Bool.true_and, bne_iff_ne, ne_eq]
      exact Rat.num_ne_zero.mpr hnz

/-! Faithful numeric model: IEEE-754 binary64.  CPython represents every
`float` as a binary64 value and rounds the result of every arithmetic
operation to the nearest representable value (ties to even); `int / int`
produces the correctly rounded double of the exact quotient, and converting
an `int` that reaches the infinite range to `float` raises `OverflowError`.
The exact-rational model above (`PyVal`, `pyDiv`, ...) idealizes this
rounding away; the `F64`/`PyValF` definitions below keep it. -/

inductive F64 where
  | fin (q : ℚ)
  | inf
  | neginf
  | nan
deriving DecidableEq, Repr

def bitlenAux : ℕ → ℕ → ℕ
  | 0, _ => 0
  | f + 1, n => if n = 0 then 0 else bitlenAux f (n / 2) + 1

/-- Number of binary digits of `n` (0 for 0). -/
def bitlen (n : ℕ) : ℕ := bitlenAux n n

/-- Round the positive rational `n / d` (both arguments positive) to the
nearest binary64 value, ties to even; `none` is overflow to infinity.
`e` is the floor of the base-2 logarithm; the significand is scaled to
`[2^52, 2^53)` for normal results (`e ≥ -1022`) and to the fixed position
`2^-1074` for subnormal ones, which also yields round-to-zero below half
the smallest subnormal. -/
def roundPos (n d : ℕ) : Option ℚ :=
  let k : ℤ := (bitlen n : ℤ) - (bitlen d : ℤ)
  let ge2k : Bool :=
    if 0 ≤ k then decide (d * 2 ^ k.toNat ≤ n) else decide (d ≤ n * 2 ^ (-k).toNat)
  let e : ℤ := if ge2k then k else k - 1
  let p : ℤ := if -1022 ≤ e then e - 52 else -1074
  let N : ℕ := n * 2 ^ (max 0 (-p)).toNat
  let D : ℕ := d * 2 ^ (max 0 p).toNat
  let m0 : ℕ := N / D
  let r : ℕ := N % D
  let m : ℕ :=
    if 2 * r < D then m0
    else if D < 2 * r then m0 + 1
    else if m0 % 2 = 0 then m0 else m0 + 1
  if 0 ≤ p ∧ 2 ^ 1024 ≤ m * 2 ^ p.toNat then none
  else some (ratNorm ((m : ℤ) * 2 ^ (max 0 p).toNat) (2 ^ (max 0 (-p)).toNat))

/-- Round an exact rational to the binary64 value CPython computes for it
(the sign of a zero is collapsed: `-0.0` and `0.0` are indistinguishable by
every operation `check_expression` performs). -/
def roundB64 (q : ℚ) : F64 :=
  if q.num = 0 then .fin 0
  else if 0 < q.num then
    match roundPos q.num.natAbs q.den with
    | some v => .fin v
    | none => .inf
  else
    match roundPos q.num.natAbs q.den with
    | some v => .fin (-v)
    | none => .neginf

def f64Val : F64 → ℚ
  | .fin q => q
  | _ => 0


/-- CPython `float(int)`: round to nearest, `OverflowError` when the value
reaches the infinite range.  This conversion is applied to an `int` operand
of a mixed `int`/`float` arithmetic operation. -/
inductive PyErrF where
  | indexError
  | valueError
  | typeError
  | zeroDivisionError
  | overflowError
deriving DecidableEq, Repr

def intToF64 (n : ℤ) : Except PyErrF F64 :=
  match roundB64 (qOfInt n) with
  | .fin q => .ok (.fin q)
  | _ => .error .overflowError

def f64IsZero : F64 → Bool
  | .fin q => q.num == 0
  | _ => false

/-- IEEE-754 binary64 addition: every finite result is rounded. -/
def f64Add : F64 → F64 → F64
  | .nan, _ => .nan
  | _, .nan => .nan
  | .inf, .neginf => .nan
  | .neginf, .inf => .nan
  | .inf, _ => .inf
  | _, .inf => .inf
  | .neginf, _ => .neginf
  | _, .neginf => .neginf
  | .fin a, .fin b => roundB64 (qAdd a b)

def f64Sub : F64 → F64 → F64
  | .nan, _ => .nan
  | _, .nan => .nan
  | .inf, .inf => .nan
  | .neginf, .neginf => .nan
  | .inf, _ => .inf
  | .neginf, _ => .neginf
  | _, .inf => .neginf
  | _, .neginf => .inf
  | .fin a, .fin b => roundB64 (qSub a b)

def f64Mul : F64 → F64 → F64
  | .nan, _ => .nan
  | _, .nan => .nan
  | .inf, .inf => .inf
  | .inf, .neginf => .neginf
  | .neginf, .inf => .neginf
  | .neginf, .neginf => .inf
  | .inf, .fin b => if b.num = 0 then .nan else if 0 < b.num then .inf else .neginf
  | .fin a, .inf => if a.num = 0 then .nan else if 0 < a.num then .inf else .neginf
  | .neginf, .fin b => if b.num = 0 then .nan else if 0 < b.num then .neginf else .inf
  | .fin a, .neginf => if a.num = 0 then .nan else if 0 < a.num then .neginf else .inf
  | .fin a, .fin b => roundB64 (qMul a b)

/-- IEEE-754 binary64 division; only reached with a nonzero divisor (the
checker raises `ZeroDivisionError` first), so the zero-divisor row is a
dead default. -/
def f64Div : F64 → F64 → F64
  | .nan, _ => .nan
  | _, .nan => .nan
  | .inf, .inf => .nan
  | .inf, .neginf => .nan
  | .neginf, .inf => .nan
  | .neginf, .neginf => .nan
  | .inf, .fin b => if 0 ≤ b.num then .inf else .neginf
  | .neginf, .fin b => if 0 ≤ b.num then .neginf else .inf
  | .fin _, .inf => .fin 0
  | .fin _, .neginf => .fin 0
  | .fin a, .fin b => if b.num = 0 then .nan else roundB64 (qDiv a b)

/-- IEEE-754 comparison `a ≤ b`; any comparison with a NaN is false. -/
def f64Le : F64 → F64 → Bool
  | .nan, _ => false
  | _, .nan => false
  | .neginf, _ => true
  | _, .inf => true
  | .inf, _ => false
  | _, .neginf => false
  | .fin a, .fin b => if qle a b then true else false

/-- Queue values of the binary64-faithful checker model. -/
inductive PyValF where
  | vInt (n : ℤ)
  | vFloat (f : F64)
  | vStr (s : String)
deriving DecidableEq, Repr

/-- Python `a + b` with binary64 float semantics: `int + int` is exact,
a mixed operation converts the `int` operand to `float` first (possible
`OverflowError`), every float result is rounded. -/
def pyAddF : PyValF → PyValF → Except PyErrF PyValF
  | .vInt a, .vInt b => .ok (.vInt (a + b))
  | .vInt a, .vFloat b =>
    match intToF64 a with
    | .error e => .error e
    | .ok fa => .ok (.vFloat (f64Add fa b))
  | .vFloat a, .vInt b =>
    match intToF64 b with
    | .error e => .error e
    | .ok fb => .ok (.vFloat (f64Add a fb))
  | .vFloat a, .vFloat b => .ok (.vFloat (f64Add a b))
  | .vStr a, .vStr b => .ok (.vStr (a ++ b))
  | _, _ => .error .typeError

def pySubF : PyValF → PyValF → Except PyErrF PyValF
  | .vInt a, .vInt b => .ok (.vInt (a - b))
  | .vInt a, .vFloat b =>
    match intToF64 a with
    | .error e => .error e
    | .ok fa => .ok (.vFloat (f64Sub fa b))
  | .vFloat a, .vInt b =>
    match intToF64 b with
    | .error e => .error e
    | .ok fb => .ok (.vFloat (f64Sub a fb))
  | .vFloat a, .vFloat b => .ok (.vFloat (f64Sub a b))
  | _, _ => .error .typeError

def pyMulF : PyValF → PyValF → Except PyErrF PyValF
  | .vInt a, .vInt b => .ok (.vInt (a * b))
  | .vInt a, .vFloat b =>
    match intToF64 a with
    | .error e => .error e
    | .ok fa => .ok (.vFloat (f64Mul fa b))
  | .vFloat a, .vInt b =>
    match intToF64 b with
    | .error e => .error e
    | .ok fb => .ok (.vFloat (f64Mul a fb))
  | .vFloat a, .vFloat b => .ok (.vFloat (f64Mul a b))
  | .vStr s, .vInt n => .ok (.vStr (String.join (List.replicate n.toNat s)))
  | .vInt n, .vStr s => .ok (.vStr (String.join (List.replicate n.toNat s)))
  | _, _ => .error .typeError

/-- Python `a / b` with binary64 semantics.  `int / int` is CPython
`long_true_divide`: the correctly rounded double of the exact quotient,
with `OverflowError` when that quotient reaches the infinite range — the
operands are not converted separately. -/
def pyDivF : PyValF → PyValF → Except PyErrF PyValF
  | .vInt a, .vInt b =>
    if b = 0 then .error .zeroDivisionError
    else
      match roundB64 (qDiv (qOfInt a) (qOfInt b)) with
      | .fin q => .ok (.vFloat (.fin q))
      | _ => .error .overflowError
  | .vInt a, .vFloat b =>
    if f64IsZero b then .error .zeroDivisionError
    else
      match intToF64 a with
      | .error e => .error e
      | .ok fa => .ok (.vFloat (f64Div fa b))
  | .vFloat a, .vInt b =>
    if b = 0 then .error .zeroDivisionError
    else
      match intToF64 b with
      | .error e => .error e
      | .ok fb => .ok (.vFloat (f64Div a fb))
  | .vFloat a, .vFloat b =>
    if f64IsZero b then .error .zeroDivisionError
    else .ok (.vFloat (f64Div a b))
  | _, _ => .error .typeError

/-- Python `int(v)` with binary64 floats: truncation toward zero; `int` of
an infinity is `OverflowError`, of a NaN `ValueError`. -/
def pyToIntF : PyValF → Except PyErrF ℤ
  | .vInt n => .ok n
  | .vFloat (.fin q) => .ok (q.num.tdiv (q.den : ℤ))
  | .vFloat .inf => .error .overflowError
  | .vFloat .neginf => .error .overflowError
  | .vFloat .nan => .error .valueError
  | .vStr s =>
    match pyInt? s with
    | some n => .ok n
    | none => .error .valueError

def pyGetF (q : List PyValF) (i : ℤ) : Except PyErrF PyValF :=
  match pyIdx? q.length i with
  | some k =>
    match q[k]? with
    | some v => .ok v
    | none => .error .indexError
  | none => .error .indexError

def pyPopF (q : List PyValF) (i : ℤ) : Except PyErrF (PyValF × List PyValF) :=
  match pyIdx? q.length i with
  | some k =>
    match q[k]? with
    | some v => .ok (v, q.eraseIdx k)
    | none => .error .indexError
  | none => .error .indexError

def pySetF (q : List PyValF) (i : ℤ) (v : PyValF) : List PyValF :=
  match pyIdx? q.length i with
  | some k => q.set k v
  | none => q

def pyInsertF (q : List PyValF) (i : ℤ) (v : PyValF) : List PyValF :=
  q.insertIdx (pyInsertPos q.length i) v

def isOpValF : PyValF → Bool
  | .vStr s => s == "+" || s == "-" || s == "*" || s == "/"
  | _ => false

def opOfF : PyValF → String
  | .vStr s => s
  | _ => ""

def applyOpF (op : String) (a b : PyValF) : Except PyErrF PyValF :=
  if op = "+" then pyAddF a b
  else if op = "-" then pySubF a b
  else if op = "*" then pyMulF a b
  else pyDivF a b

inductive StepResF where
  | err (e : PyErrF)
  | retr (r : Bool × String) (nums : List ℤ)
  | cont (q : List PyValF) (i : ℤ) (nums : List ℤ)
  | finish (q : List PyValF) (nums : List ℤ)
deriving DecidableEq, Repr

def evalStepF (q : List PyValF) (i : ℤ) (nums : List ℤ) : StepResF :=
  if i < (q.length : ℤ) then
    match pyGetF q i with
    | .error e => .err e
    | .ok v =>
      if isOpValF v then
        match pyPopF q i with
        | .error e => .err e
        | .ok (_, q1) =>
          match pyPopF q1 (i - 2) with
          | .error e => .err e
          | .ok (a, q2) =>
            match pyPopF q2 (i - 2) with
            | .error e => .err e
            | .ok (b, q3) =>
              match applyOpF (opOfF v) a b with
              | .error e => .err e
              | .ok c => .cont (pyInsertF q3 (i - 2) c) (i - 1) nums
      else
        match pyToIntF v with
        | .error e => .err e
        | .ok n =>
          let q2 := pySetF q i (.vInt n)
          if n ∈ nums then .cont q2 (i + 1) (nums.erase n)
          else .retr (false, "Numbers mismatched") nums
  else .finish q nums

inductive EvalOutF where
  | ret (r : Bool × String) (nums : List ℤ)
  | done (q : List PyValF) (nums : List ℤ)
deriving DecidableEq, Repr

def evalMeasureF (q : List PyValF) (i : ℤ) : ℕ :=
  q.length + ((q.length : ℤ) - i).toNat

def evalLoopAuxF : ℕ → List PyValF → ℤ → List ℤ → Except PyErrF EvalOutF
  | 0, q, _, nums => .ok (.done q nums)
  | fuel + 1, q, i, nums =>
    match evalStepF q i nums with
    | .err e => .error e
    | .retr r nums2 => .ok (.ret r nums2)
    | .finish q2 nums2 => .ok (.done q2 nums2)
    | .cont q2 i2 nums2 => evalLoopAuxF fuel q2 i2 nums2

def evalLoopF (q : List PyValF) (i : ℤ) (nums : List ℤ) : Except PyErrF EvalOutF :=
  evalLoopAuxF (evalMeasureF q i + 1) q i nums

/-- The binary64 values of the source literals `23.9` and `24.1`. -/
def f239 : F64 := roundB64 tol239

def f241 : F64 := roundB64 tol241

/-- Epilogue of `check_expression` under binary64 semantics.  The chained
comparison `24.1 >= output_queue[0] >= 23.9` compares against the rounded
literal values; CPython compares an `int` with a `float` exactly, without
converting the `int`. -/
def finalCheckF : List PyValF → List ℤ → Except PyErrF ((Bool × String) × List ℤ)
  | [], _ => .error .indexError
  | v :: _, nums2 =>
    if 0 < nums2.length then .ok ((false, "Didn't use all the cards"), nums2)
    else
      match v with
      | .vStr _ => .error .typeError
      | .vInt n =>
        .ok ((if qle (f64Val f239) (qOfInt n) ∧ qle (qOfInt n) (f64Val f241)
          then (true, "Correct!") else (false, "Result not 24")), nums2)
      | .vFloat f =>
        .ok ((if (f64Le f239 f && f64Le f f241) = true
          then (true, "Correct!") else (false, "Result not 24")), nums2)

def evalPhaseF (q : List PyValF) (nums : List ℤ) : Except PyErrF ((Bool × String) × List ℤ) :=
  match evalLoopF q 0 nums with
  | .error e => .error e
  | .ok (.ret r nums2) => .ok (r, nums2)
  | .ok (.done q2 nums2) => finalCheckF q2 nums2

/-- `check_expression(nums, expression)` under the binary64-faithful numeric
model; the tokenizer phase `syRun` is shared with the exact model, as it
does no arithmetic. -/
def check_expressionF (nums : List ℤ) (expression : String) :
    Except PyErrF ((Bool × String) × List ℤ) :=
  match syRun expression.data { out := [], ops := [], wasNum := false } with
  | .error r => .ok (r, nums)
  | .ok st => evalPhaseF ((st.out ++ st.ops.map Char.toString).map PyValF.vStr) nums

/-- C1: the claimed biconditional with the exact real-valued evaluation is
false of the program, because CPython rounds every float operation to
binary64.  On cards `[2^53 + 1, 2^53, 1, 3 * 2^56]` with the expression
`(9007199254740993/9007199254740992-1)*216172782113783808` — each card used
exactly once, no division by zero — the exact value is
`((2^53+1)/2^53 - 1) * 3*2^56 = 24`, inside [23.9, 24.1]; but the program
rounds the quotient `(2^53+1)/2^53` to exactly `1.0` (tie to even), computes
`0.0`, and returns `(false, "Result not 24")`.  The second conjunct shows
the same checker accepting under exact arithmetic, so the divergence is the
float rounding alone. -/
theorem c1_float_rounding_diverges :
    check_expressionF [9007199254740993, 9007199254740992, 1, 216172782113783808]
        "(9007199254740993/9007199254740992-1)*216172782113783808"
      = .ok ((false, "Result not 24"), []) ∧
    check_expression [9007199254740993, 9007199254740992, 1, 216172782113783808]
        "(9007199254740993/9007199254740992-1)*216172782113783808"
      = .ok ((true, "Correct!"), []) := by
  constructor
  · decide
  · decide

/-- C2 (amended): for every list of nonnegative integer cards, if `solve24`
returns an expression string, feeding it back to the validator yields
`(true, "Correct!")`.  The nonnegativity restriction is needed because a
negative card is printed as a `-`-prefixed literal, which the checker's
character-level tokenizer reads as the binary operator `-` followed by an
unsigned number, so the literal multiset check fails (see the
counterexample). -/
theorem c2_solve24_validates (nums : List ℤ) (hpos : ∀ k ∈ nums, 0 ≤ k)
    (e : String) (h : solve24 nums = some e) :
    check_result nums e = .ok (true, "Correct!") := by
  obtain ⟨v, hS, hlo, hhi⟩ := solve24_sound h
  have hpos2 : ∀ k ∈ (↑nums : Multiset ℤ), 0 ≤ k := by
    intro k hk
    exact hpos k (Multiset.mem_coe.mp hk)
  obtain ⟨ex, hwf, hv, hl, hz⟩ := solExp_toWf hS hpos2
  have hperm : (leaves ex).Perm nums := Multiset.coe_eq_coe.mp hl
  have hmk : String.mk e.data = e := by cases e; rfl
  have hcheck := check_correct nums e.data ex (Wf.te (Wf.ft hwf)) hperm hz
  rw [hmk] at hcheck
  have h239 : (23.9 : ℚ) ≤ evalQ ex ∧ evalQ ex ≤ 24.1 := by
    rw [hv]
    constructor
    · calc (23.9 : ℚ) ≤ tolSolLo := by rw [tolSolLo_eq]; norm_num
        _ ≤ v := hlo
    · calc v ≤ tolSolHi := hhi
        _ ≤ 24.1 := by rw [tolSolHi_eq]; norm_num
  rw [check_result, hcheck, if_pos h239]
  rfl

/-- C2, counterexample to the claim as stated (for every list of four
integers): on the all-integer input `[-24, -1, 1, 1]` the solver returns
`"((1 / 1) / (-1 / -24))"`, but the validator rejects it with
`"Numbers mismatched"` because it parses `-24` as operator-then-`24`. -/
theorem c2_negative_cards_counterexample :
    solve24 [-24, -1, 1, 1] = some "((1 / 1) / (-1 / -24))" ∧
    check_result [-24, -1, 1, 1] "((1 / 1) / (-1 / -24))"
      = .ok (false, "Numbers mismatched") := by
  constructor
  · decide
  · decide

/-- C2, witness: the claim's own instance `[4, 7, 8, 8]`, discharging both
hypotheses of the amended theorem at a concrete input. -/
theorem c2_solve24_validates_witness :
    solve24 [4, 7, 8, 8] = some "((7 - (8 / 8)) * 4)" ∧
    check_result [4, 7, 8, 8] "((7 - (8 / 8)) * 4)" = .ok (true, "Correct!") := by
  have h : solve24 [4, 7, 8, 8] = some "((7 - (8 / 8)) * 4)" := by decide
  exact ⟨h, c2_solve24_validates [4, 7, 8, 8] (by decide) _ h⟩

/-- C8: `solve24 [1, 1, 1, 1]` returns the no-solution sentinel `none`, and
it does so because the work-list loop genuinely empties (the loop run with
the same fuel ends in the `finished` state `some none`, not by fuel
exhaustion). -/
theorem c8_solve24_1111_exhausts :
    solve24 [1, 1, 1, 1] = none ∧
    (let start := (gather ([1, 1, 1, 1].map fun i : ℤ => (qOfInt i, toString i))).reverse
     solveLoopAux (solveMeasure start + 1) start = some none) := by
  constructor
  · decide
  · decide

/-- C9: every expression string returned by `solve24` admits a `SolExp`
derivation over the input cards, and the `SolExp.div` constructor demands a
nonzero divisor value — so a division with a zero-valued divisor never
appears in a returned expression.  The derivation exists precisely because
`combineVals` adds a division branch only under its `num ≠ 0` guards. -/
theorem c9_no_zero_divisor_in_output {nums : List ℤ} {e : String}
    (h : solve24 nums = some e) :
    ∃ v : ℚ, SolExp (↑nums : Multiset ℤ) v e := by
  obtain ⟨v, hS, _, _⟩ := solve24_sound h
  exact ⟨v, hS⟩

/-- C9, witness: the solver output on `[12, 11, 1, 6]`. -/
theorem c9_no_zero_divisor_in_output_witness :
    ∃ v : ℚ, SolExp (↑([12, 11, 1, 6] : List ℤ) : Multiset ℤ) v
      "((11 + 1) / (6 / 12))" :=
  c9_no_zero_divisor_in_output (by decide)

/-- C10: every expression string returned by `solve24` has balanced
parentheses (the depth scan from 0 ends at 0), and carries a `SolExp`
derivation over exactly the input card multiset, whose `leaf` constructor
makes each input number appear exactly once as a literal; the underlying
invariant is preserved by every `gather` expansion step (`gather_good`). -/
theorem c10_output_balanced_and_uses_cards {nums : List ℤ} {e : String}
    (h : solve24 nums = some e) :
    scanBal e.data 0 = some 0 ∧ ∃ v : ℚ, SolExp (↑nums : Multiset ℤ) v e := by
  obtain ⟨v, hS, _, _⟩ := solve24_sound h
  exact ⟨solExp_scanBal hS 0, v, hS⟩

/-- C10, witness: the solver output on `[3, 3, 8, 8]`. -/
theorem c10_output_balanced_and_uses_cards_witness :
    scanBal "(8 / (3 - (8 / 3)))".data 0 = some 0 ∧
    ∃ v : ℚ, SolExp (↑([3, 3, 8, 8] : List ℤ) : Multiset ℤ) v
      "(8 / (3 - (8 / 3)))" :=
  c10_output_balanced_and_uses_cards (by decide)

end Game24

